import Mathlib

/-!
# jsonstore: a file-backed key/value store

Shallow embedding of `store.go`.  The store keeps a Go map from string keys to
`json.RawMessage` values, loads it from a backing file in `NewStore` and rewrites
the whole file (temporary file, then rename) after every mutation.

* Go strings and byte slices are lists of bytes (`Nat` values below 256).
* The file system is an explicit state `FS`; the outcome the operating system
  gives to each call (`os.ReadFile`, `os.WriteFile`, `os.Rename`) and the umask of
  the process are explicit arguments (`Env`) of the operation that makes the call.
* `encoding/json` is a record `JsonLib` of the four entry points the store calls.
  `goJsonFor` instantiates the two that work on the map of the store with a model of
  the package (scanner, `Compact`, `Indent`, quoting of keys), for any codec of the
  element type; `goJson`, `goJsonRaw` and `goJsonFunc` are the instances for
  `Store[int]`, `Store[json.RawMessage]` and `Store[func()]`.
* A Go map may be `nil`; `Store.data = none` is the nil map.  Writing to a nil map
  panics, which is the `Result.panic` outcome of `Store.Set`.
-/

namespace Jsonstore

/-- Byte strings: Go `string` and `[]byte` values. -/
abbrev Bytes := List Nat

/-- ASCII text as bytes. -/
def ascii (s : String) : Bytes := s.toList.map Char.toNat

/-- Errors that the store returns. `ErrNotFound` is the package variable of `store.go`;
`ErrNotExist` is `os.ErrNotExist`; the other two stand for the remaining errors of the
operating system and of `encoding/json`. -/
inductive Error where
  | ErrNotFound
  | ErrNotExist
  | osError (code : Nat)
  | jsonError (code : Nat)
  deriving DecidableEq, Repr

/-- A file: its content and its permission bits. -/
structure File where
  content : Bytes
  perm : Nat
  deriving DecidableEq, Repr

/-- The file system: what is stored under each path. -/
abbrev FS := Bytes → Option File

/-- Replace what is stored under one path. -/
def FS.update (fs : FS) (name : Bytes) (f : Option File) : FS :=
  fun p => if p = name then f else fs p

/-- How a call of `os.WriteFile` ends: it succeeds, or it fails with an error and
leaves the target either untouched (`leftover = none`) or holding some partial
content. -/
inductive WriteOutcome where
  | ok
  | fail (e : Error) (leftover : Option Bytes)
  deriving DecidableEq, Repr

/-- The outcomes the operating system gives to the calls of one store operation:
an error for `os.ReadFile` and for `os.Rename` (`none`: the call goes through), the
outcome of `os.WriteFile`, and the file mode creation mask of the process. -/
structure Env where
  read : Option Error
  write : WriteOutcome
  rename : Option Error
  umask : Nat
  deriving DecidableEq, Repr

/-- The environment in which every call goes through, under the usual umask 022. -/
def Env.good : Env := ⟨none, WriteOutcome.ok, none, 0o022⟩

/-- The permission bits `perm` with the bits of `umask` cleared (`perm &^ umask`):
the bits of `perm` that are also in `umask` are taken off. -/
def applyUmask (perm umask : Nat) : Nat := perm - (perm &&& umask)

/-- `os.ReadFile`. -/
def readFile (fs : FS) (name : Bytes) (fault : Option Error) : Except Error Bytes :=
  match fault with
  | some e => .error e
  | none =>
    match fs name with
    | none => .error Error.ErrNotExist
    | some f => .ok f.content

/-- `os.WriteFile`: creates the file with `perm` before umask when it does not exist,
truncates it otherwise (the permission bits of an existing file stay). -/
def writeFile (fs : FS) (name : Bytes) (data : Bytes) (perm umask : Nat)
    (o : WriteOutcome) : FS × Option Error :=
  let mode := match fs name with
    | some f => f.perm
    | none => applyUmask perm umask
  match o with
  | .ok => (fs.update name (some ⟨data, mode⟩), none)
  | .fail e none => (fs, some e)
  | .fail e (some part) => (fs.update name (some ⟨part, mode⟩), some e)

/-- `os.Rename`: the file of `old` replaces the one of `new`. -/
def rename (fs : FS) (old new : Bytes) (fault : Option Error) : FS × Option Error :=
  match fault with
  | some e => (fs, some e)
  | none =>
    match fs old with
    | none => (fs, some Error.ErrNotExist)
    | some f => ((fs.update old none).update new (some f), none)

/-- Go `map[string]json.RawMessage` (non-nil): keys are unique. -/
abbrev RawMap := AList (fun _ : Bytes => Bytes)

/-- The entry points of `encoding/json` that the store calls, for element type `T`.
`UnmarshalMap b m` is `json.Unmarshal(b, &m)` for `m` of type
`map[string]json.RawMessage`: it returns the map after the call and the error. -/
structure JsonLib (T : Type) where
  zero : T
  Marshal : T → Except Error Bytes
  Unmarshal : Bytes → Except Error T
  MarshalIndentMap : Option RawMap → Except Error Bytes
  UnmarshalMap : Bytes → Option RawMap → Option RawMap × Option Error

/-- The store (`Store[T]` without its lock). `data = none` is the nil map. -/
structure Store where
  path : Bytes
  data : Option RawMap

/-- Outcome of a call that may panic. -/
inductive Result (α : Type) where
  | panic
  | ret (a : α)

namespace Store

variable {T : Type}

/-- `Store.load`. -/
def load (lib : JsonLib T) (s : Store) (fs : FS) (env : Env) : Store × FS × Option Error :=
  match readFile fs s.path env.read with
  | .error e =>
    if e = Error.ErrNotExist then
      let r := writeFile fs s.path (ascii "{}") 0o644 env.umask env.write
      (s, r.1, r.2)
    else (s, fs, some e)
  | .ok b =>
    if b.length = 0 then ({ s with data := some ∅ }, fs, none)
    else
      let r := lib.UnmarshalMap b s.data
      ({ s with data := r.1 }, fs, r.2)

/-- `NewStore`. -/
def NewStore (lib : JsonLib T) (path : Bytes) (fs : FS) (env : Env) :
    Except Error Store × FS :=
  let s : Store := { path := path, data := some ∅ }
  match load lib s fs env with
  | (_, fs1, some e) => (.error e, fs1)
  | (s1, fs1, none) => (.ok s1, fs1)

/-- `Store.persist`. -/
def persist (lib : JsonLib T) (s : Store) (fs : FS) (env : Env) : FS × Option Error :=
  match lib.MarshalIndentMap s.data with
  | .error e => (fs, some e)
  | .ok b =>
    let tmp := s.path ++ ascii ".tmp"
    match writeFile fs tmp b 0o644 env.umask env.write with
    | (fs1, some e) => (fs1, some e)
    | (fs1, none) => rename fs1 tmp s.path env.rename

/-- `Store.Set`. The assignment `s.data[key] = b` panics on a nil map. -/
def Set (lib : JsonLib T) (s : Store) (key : Bytes) (v : T) (fs : FS) (env : Env) :
    Result (Store × FS × Option Error) :=
  match lib.Marshal v with
  | .error e => .ret (s, fs, some e)
  | .ok b =>
    match s.data with
    | none => .panic
    | some m =>
      let s1 : Store := { s with data := some (m.insert key b) }
      let r := persist lib s1 fs env
      .ret (s1, r.1, r.2)

/-- `Store.Get`. Reading a nil map finds nothing. -/
def Get (lib : JsonLib T) (s : Store) (key : Bytes) : T × Option Error :=
  match s.data.bind (fun m => m.lookup key) with
  | none => (lib.zero, some Error.ErrNotFound)
  | some raw =>
    match lib.Unmarshal raw with
    | .error e => (lib.zero, some e)
    | .ok v => (v, none)

/-- `Store.Delete`. `delete` on a nil map does nothing. -/
def Delete (lib : JsonLib T) (s : Store) (key : Bytes) (fs : FS) (env : Env) :
    Store × FS × Option Error :=
  let s1 : Store := { s with data := s.data.map (fun m => m.erase key) }
  let r := persist lib s1 fs env
  (s1, r.1, r.2)

/-- `Store.Keys`. The order in which Go ranges over a map is unspecified; the model
lists the keys in the order of the association list. -/
def Keys (s : Store) : List Bytes × Option Error :=
  match s.data with
  | none => ([], none)
  | some m => (m.keys, none)

end Store

/-!
## A model of `encoding/json`

The store calls `json.Marshal`, `json.MarshalIndent` and `json.Unmarshal` of the Go
standard library. What follows models the behaviour of these functions that the
package documents, on bytes:

* the scanner: which documents are valid JSON (white space, literals, strings with
  their escapes, arrays, objects, nesting up to `maxNestingDepth`);
* `Compact` with HTML escaping and `Indent` with prefix `""` and indent `"  "`, given
  on the scanned value, whose tokens are kept as written;
* `Marshal` of a `map[string]json.RawMessage`: keys in byte order, each key quoted with
  invalid UTF-8 replaced by U+FFFD, each raw message compacted; a nil map is `null`;
* `Unmarshal` into a `map[string]json.RawMessage`: `null` makes the map nil, an object
  stores under each unquoted key the bytes of the value as written, any other
  document is an error.
-/

/-- JSON text with its tokens kept as written. -/
inductive JV where
  | lit (text : Bytes)
  | str (body : Bytes)
  | arr (items : List JV)
  | obj (members : List (Bytes × JV))
  deriving Repr

/-- The deepest nesting of arrays and objects that the scanner of `encoding/json` accepts. -/
def maxNestingDepth : Nat := 10000

/-- JSON white space: space, tab, line feed, carriage return. -/
def isSpace (c : Nat) : Bool := c = 0x20 || c = 0x09 || c = 0x0A || c = 0x0D
/-- The decimal digits. -/
def isDigit (c : Nat) : Bool := decide (0x30 ≤ c) && decide (c ≤ 0x39)
/-- The hexadecimal digits, in either case. -/
def isHex (c : Nat) : Bool :=
  isDigit c || (decide (0x61 ≤ c) && decide (c ≤ 0x66)) || (decide (0x41 ≤ c) && decide (c ≤ 0x46))
/-- The bytes that a literal is scanned from: digits, letters, sign and point. -/
def isLitChar (c : Nat) : Bool :=
  isDigit c || (decide (0x61 ≤ c) && decide (c ≤ 0x7A)) || (decide (0x41 ≤ c) && decide (c ≤ 0x5A))
    || c = 0x2B || c = 0x2D || c = 0x2E

/-- Drop leading white space. -/
def skipSpace (bs : Bytes) : Bytes := bs.dropWhile isSpace

/-- The rest of a number from its exponent on. -/
def expPart : Bytes → Bool
  | [] => true
  | c :: r =>
    if c = 0x65 || c = 0x45 then
      let r1 := match r with
        | 0x2B :: t => t
        | 0x2D :: t => t
        | _ => r
      !r1.isEmpty && r1.all isDigit
    else false

/-- The rest of a number from its fraction on. -/
def fracPart : Bytes → Bool
  | 0x2E :: r =>
    let d := r.takeWhile isDigit
    !d.isEmpty && expPart (r.dropWhile isDigit)
  | bs => expPart bs

/-- A number without its sign. -/
def intPart : Bytes → Bool
  | [] => false
  | c :: r =>
    if c = 0x30 then fracPart r
    else if isDigit c then fracPart (r.dropWhile isDigit)
    else false

/-- The JSON numbers. -/
def validNumber : Bytes → Bool
  | 0x2D :: r => intPart r
  | bs => intPart bs

/-- The JSON literals: `null`, `true`, `false` and the numbers. -/
def validLit (t : Bytes) : Bool :=
  t = ascii "null" || t = ascii "true" || t = ascii "false" || validNumber t


/-- The bytes that may follow a backslash in a string, `u` apart. -/
def isSimpleEscape (e : Nat) : Bool :=
  e = 0x22 || e = 0x5C || e = 0x2F || e = 0x62 || e = 0x66 || e = 0x6E || e = 0x72 || e = 0x74

/-- Scan a string after its opening quote: the body as written and what follows the
closing quote. -/
def pStr : Bytes → Option (Bytes × Bytes)
  | [] => none
  | c :: r =>
    if c = 0x22 then some ([], r)
    else if c = 0x5C then
      match r with
      | [] => none
      | e :: r2 =>
        if e = 0x75 then
          match r2 with
          | h1 :: h2 :: h3 :: h4 :: r3 =>
            if isHex h1 && isHex h2 && isHex h3 && isHex h4 then
              (pStr r3).map (fun p => (c :: e :: h1 :: h2 :: h3 :: h4 :: p.1, p.2))
            else none
          | _ => none
        else if isSimpleEscape e then (pStr r2).map (fun p => (c :: e :: p.1, p.2))
        else none
    else if c < 0x20 then none
    else (pStr r).map (fun p => (c :: p.1, p.2))

/-- Scan a literal (`null`, `true`, `false` or a number). -/
def pLit (bs : Bytes) : Option (Bytes × Bytes) :=
  let t := bs.takeWhile isLitChar
  if validLit t then some (t, bs.dropWhile isLitChar) else none

/-- The elements of an array after the first byte of the first element, given the
scanner `pv` for one value. -/
def pElems (pv : Bytes → Option (JV × Bytes)) : Nat → Bytes → Option (List JV × Bytes)
  | 0, _ => none
  | n + 1, bs =>
    match pv bs with
    | none => none
    | some (v, r) =>
      match skipSpace r with
      | c :: r1 =>
        if c = 0x5D then some ([v], r1)
        else if c = 0x2C then
          (pElems pv n (skipSpace r1)).map (fun p => (v :: p.1, p.2))
        else none
      | [] => none

/-- The members of an object, from the opening quote of the first key. -/
def pMembers (pv : Bytes → Option (JV × Bytes)) :
    Nat → Bytes → Option (List (Bytes × JV × Bytes) × Bytes)
  | 0, _ => none
  | n + 1, bs =>
    match bs with
    | [] => none
    | q :: r0 =>
      if q = 0x22 then
        match pStr r0 with
        | none => none
        | some (k, r) =>
          match skipSpace r with
          | [] => none
          | c :: r1 =>
            if c = 0x3A then
              let s := skipSpace r1
              match pv s with
              | none => none
              | some (v, r2) =>
                let raw := s.take (s.length - r2.length)
                match skipSpace r2 with
                | [] => none
                | c2 :: r3 =>
                  if c2 = 0x7D then some ([(k, v, raw)], r3)
                  else if c2 = 0x2C then
                    (pMembers pv n (skipSpace r3)).map (fun p => ((k, v, raw) :: p.1, p.2))
                  else none
            else none
      else none

/-- Scan one value that starts at the first byte of `bs`; `depth` is the number of
arrays and objects that are open around it. -/
def pValue : Nat → Nat → Bytes → Option (JV × Bytes)
  | 0, _, _ => none
  | _ + 1, _, [] => none
  | n + 1, depth, c :: r =>
    if c = 0x22 then (pStr r).map (fun p => (JV.str p.1, p.2))
    else if c = 0x5B then
      if depth + 1 > maxNestingDepth then none
      else
        match skipSpace r with
        | [] => none
        | c1 :: r1 =>
          if c1 = 0x5D then some (JV.arr [], r1)
          else (pElems (pValue n (depth + 1)) (r.length) (c1 :: r1)).map
            (fun p => (JV.arr p.1, p.2))
    else if c = 0x7B then
      if depth + 1 > maxNestingDepth then none
      else
        match skipSpace r with
        | [] => none
        | c1 :: r1 =>
          if c1 = 0x7D then some (JV.obj [], r1)
          else (pMembers (pValue n (depth + 1)) (r.length) (c1 :: r1)).map
            (fun p => (JV.obj (p.1.map (fun m => (m.1, m.2.1))), p.2))
    else (pLit (c :: r)).map (fun p => (JV.lit p.1, p.2))

/-- A whole document: one value between optional white space. The first argument of
`pValue` bounds the recursion; it is never used up, because nesting deeper than
`maxNestingDepth` is rejected. -/
def parse (bs : Bytes) : Option JV :=
  match pValue (maxNestingDepth + 1) 0 (skipSpace bs) with
  | some (v, r) => if skipSpace r = [] then some v else none
  | none => none


/-- The escape that `Compact` writes for one byte when it escapes for HTML. -/
def escByte (c : Nat) : Option Bytes :=
  if c = 0x3C then some (ascii "\\u003c")
  else if c = 0x3E then some (ascii "\\u003e")
  else if c = 0x26 then some (ascii "\\u0026")
  else none

/-- What `Compact` does to the bytes of a string when it escapes for HTML: `<`, `>`,
`&` and the encodings of U+2028 and U+2029 are replaced by `\u` escapes. -/
def escHTML : Bytes → Bytes
  | [] => []
  | c :: c1 :: c2 :: r2 =>
    match escByte c with
    | some e => e ++ escHTML (c1 :: c2 :: r2)
    | none =>
      if c = 0xE2 && c1 = 0x80 && c2 = 0xA8 then ascii "\\u2028" ++ escHTML r2
      else if c = 0xE2 && c1 = 0x80 && c2 = 0xA9 then ascii "\\u2029" ++ escHTML r2
      else c :: escHTML (c1 :: c2 :: r2)
  | c :: r =>
    match escByte c with
    | some e => e ++ escHTML r
    | none => c :: escHTML r

mutual
/-- Apply `f` to every string body and every key. -/
def JV.mapStr (f : Bytes → Bytes) : JV → JV
  | .lit t => .lit t
  | .str b => .str (f b)
  | .arr items => .arr (JV.mapStrList f items)
  | .obj ms => .obj (JV.mapStrMembers f ms)
def JV.mapStrList (f : Bytes → Bytes) : List JV → List JV
  | [] => []
  | v :: vs => JV.mapStr f v :: JV.mapStrList f vs
def JV.mapStrMembers (f : Bytes → Bytes) : List (Bytes × JV) → List (Bytes × JV)
  | [] => []
  | (k, v) :: ms => (f k, JV.mapStr f v) :: JV.mapStrMembers f ms
end

/-- A line break of `Indent` at nesting depth `d` (prefix `""`, indent two spaces). -/
def newline (d : Nat) : Bytes := 0x0A :: List.replicate (2 * d) 0x20

mutual
/-- The text `Indent` produces for a value that stands at nesting depth `d`. -/
def JV.indent (d : Nat) : JV → Bytes
  | .lit t => t
  | .str b => 0x22 :: b ++ [0x22]
  | .arr [] => [0x5B, 0x5D]
  | .arr (v :: vs) =>
    0x5B :: newline (d + 1) ++ JV.indent (d + 1) v ++ JV.indentList (d + 1) vs
      ++ newline d ++ [0x5D]
  | .obj [] => [0x7B, 0x7D]
  | .obj ((k, v) :: ms) =>
    0x7B :: newline (d + 1) ++ (0x22 :: k ++ [0x22, 0x3A, 0x20]) ++ JV.indent (d + 1) v
      ++ JV.indentMembers (d + 1) ms ++ newline d ++ [0x7D]
def JV.indentList (d : Nat) : List JV → Bytes
  | [] => []
  | v :: vs => 0x2C :: newline d ++ JV.indent d v ++ JV.indentList d vs
def JV.indentMembers (d : Nat) : List (Bytes × JV) → Bytes
  | [] => []
  | (k, v) :: ms =>
    0x2C :: newline d ++ (0x22 :: k ++ [0x22, 0x3A, 0x20]) ++ JV.indent d v
      ++ JV.indentMembers d ms
end


mutual
/-- Nesting depth of a value: the number of arrays and objects open at its deepest
point. -/
def JV.height : JV → Nat
  | .lit _ => 0
  | .str _ => 0
  | .arr items => JV.heightList items + 1
  | .obj ms => JV.heightMembers ms + 1
def JV.heightList : List JV → Nat
  | [] => 0
  | v :: vs => max (JV.height v) (JV.heightList vs)
def JV.heightMembers : List (Bytes × JV) → Nat
  | [] => 0
  | (_, v) :: ms => max (JV.height v) (JV.heightMembers ms)
end

/-- The continuation bytes of UTF-8. -/
def isCont (c : Nat) : Bool := decide (0x80 ≤ c) && decide (c ≤ 0xBF)

/-- `utf8.DecodeRune`: the first rune of `bs` and its width; an invalid encoding gives
`(0xFFFD, 1)`. -/
def decodeRune : Bytes → Nat × Nat
  | [] => (0xFFFD, 0)
  | b0 :: r =>
    if b0 < 0x80 then (b0, 1)
    else if decide (0xC2 ≤ b0) && decide (b0 ≤ 0xDF) then
      match r with
      | b1 :: _ => if isCont b1 then ((b0 % 32) * 64 + b1 % 64, 2) else (0xFFFD, 1)
      | _ => (0xFFFD, 1)
    else if decide (0xE0 ≤ b0) && decide (b0 ≤ 0xEF) then
      match r with
      | b1 :: b2 :: _ =>
        let lo := if b0 = 0xE0 then 0xA0 else 0x80
        let hi := if b0 = 0xED then 0x9F else 0xBF
        if decide (lo ≤ b1) && decide (b1 ≤ hi) && isCont b2 then
          ((b0 % 16) * 4096 + (b1 % 64) * 64 + b2 % 64, 3)
        else (0xFFFD, 1)
      | _ => (0xFFFD, 1)
    else if decide (0xF0 ≤ b0) && decide (b0 ≤ 0xF4) then
      match r with
      | b1 :: b2 :: b3 :: _ =>
        let lo := if b0 = 0xF0 then 0x90 else 0x80
        let hi := if b0 = 0xF4 then 0x8F else 0xBF
        if decide (lo ≤ b1) && decide (b1 ≤ hi) && isCont b2 && isCont b3 then
          ((b0 % 8) * 262144 + (b1 % 64) * 4096 + (b2 % 64) * 64 + b3 % 64, 4)
        else (0xFFFD, 1)
      | _ => (0xFFFD, 1)
    else (0xFFFD, 1)

/-- `utf8.AppendRune`. -/
def encodeRune (r : Nat) : Bytes :=
  if r < 0x80 then [r]
  else if r < 0x800 then [0xC0 + r / 64, 0x80 + r % 64]
  else if (decide (0xD800 ≤ r) && decide (r < 0xE000)) || decide (0x10FFFF < r) then
    [0xEF, 0xBF, 0xBD]
  else if r < 0x10000 then [0xE0 + r / 4096, 0x80 + (r / 64) % 64, 0x80 + r % 64]
  else [0xF0 + r / 262144, 0x80 + (r / 4096) % 64, 0x80 + (r / 64) % 64, 0x80 + r % 64]

/-- `utf8.ValidString`. -/
def validUTF8 : Nat → Bytes → Bool
  | 0, bs => bs.isEmpty
  | _ + 1, [] => true
  | n + 1, c :: r =>
    let d := decodeRune (c :: r)
    if d.1 = 0xFFFD && d.2 = 1 then false else validUTF8 n ((c :: r).drop d.2)

/-- The lower-case hexadecimal digit for a value below 16. -/
def hexDigit (n : Nat) : Nat := if n < 10 then 0x30 + n else 0x61 + (n - 10)

/-- What `appendString` (HTML escaping on) writes for a byte below 0x80. -/
def quoteByte (c : Nat) : Bytes :=
  if c = 0x22 || c = 0x5C then [0x5C, c]
  else if c = 0x08 then [0x5C, 0x62]
  else if c = 0x0C then [0x5C, 0x66]
  else if c = 0x0A then [0x5C, 0x6E]
  else if c = 0x0D then [0x5C, 0x72]
  else if c = 0x09 then [0x5C, 0x74]
  else if c < 0x20 || c = 0x3C || c = 0x3E || c = 0x26 then
    [0x5C, 0x75, 0x30, 0x30, hexDigit (c / 16), hexDigit (c % 16)]
  else [c]

/-- The body of the JSON string that `Marshal` writes for a Go string (HTML escaping
on): `appendString`. Invalid UTF-8 is written as `\ufffd`, U+2028 and U+2029 as
escapes, every other rune above 0x7F as it is. -/
def quoteF : Nat → Bytes → Bytes
  | 0, _ => []
  | _ + 1, [] => []
  | n + 1, c :: r =>
    if c < 0x80 then quoteByte c ++ quoteF n r
    else
      let d := decodeRune (c :: r)
      if d.1 = 0xFFFD && d.2 = 1 then ascii "\\ufffd" ++ quoteF n r
      else if d.1 = 0x2028 then ascii "\\u2028" ++ quoteF n ((c :: r).drop d.2)
      else if d.1 = 0x2029 then ascii "\\u2029" ++ quoteF n ((c :: r).drop d.2)
      else (c :: r).take d.2 ++ quoteF n ((c :: r).drop d.2)

/-- The body of the JSON string that `Marshal` writes for a key. -/
def quote (s : Bytes) : Bytes := quoteF s.length s

/-- The value of a hexadecimal digit. -/
def hexVal (c : Nat) : Nat :=
  if isDigit c then c - 0x30
  else if decide (0x61 ≤ c) && decide (c ≤ 0x66) then c - 0x61 + 10
  else c - 0x41 + 10

/-- `getu4`: the code unit of a `\uXXXX` escape at the start of `bs`. -/
def getu4 : Bytes → Option Nat
  | 0x5C :: 0x75 :: h1 :: h2 :: h3 :: h4 :: _ =>
    if isHex h1 && isHex h2 && isHex h3 && isHex h4 then
      some (hexVal h1 * 4096 + hexVal h2 * 256 + hexVal h3 * 16 + hexVal h4)
    else none
  | _ => none

/-- The byte that a one-letter escape stands for. -/
def unescapeByte (e : Nat) : Nat :=
  if e = 0x62 then 0x08 else if e = 0x66 then 0x0C else if e = 0x6E then 0x0A
  else if e = 0x72 then 0x0D else if e = 0x74 then 0x09 else e

/-- The Go string that a string body stands for: `unquoteBytes` on a body that the
scanner has accepted. -/
def unquoteF : Nat → Bytes → Bytes
  | 0, _ => []
  | _ + 1, [] => []
  | n + 1, c :: r =>
    if c = 0x5C then
      match r with
      | [] => []
      | e :: r2 =>
        if e = 0x75 then
          match getu4 (c :: r) with
          | none => []
          | some rr =>
            let r6 := r2.drop 4
            if decide (0xD800 ≤ rr) && decide (rr < 0xE000) then
              match getu4 r6 with
              | some rr1 =>
                if decide (rr < 0xDC00) && decide (0xDC00 ≤ rr1) && decide (rr1 < 0xE000) then
                  encodeRune ((rr - 0xD800) * 1024 + (rr1 - 0xDC00) + 0x10000)
                    ++ unquoteF n (r6.drop 6)
                else encodeRune 0xFFFD ++ unquoteF n r6
              | none => encodeRune 0xFFFD ++ unquoteF n r6
            else encodeRune rr ++ unquoteF n r6
        else unescapeByte e :: unquoteF n r2
    else if c < 0x80 then c :: unquoteF n r
    else
      let d := decodeRune (c :: r)
      encodeRune d.1 ++ unquoteF n ((c :: r).drop d.2)

/-- The Go string that the body of a key stands for. -/
def unquote (body : Bytes) : Bytes := unquoteF body.length body

/-- Order of `strings.Compare`, by which `Marshal` sorts the keys of a map. -/
def bytesLE : Bytes → Bytes → Bool
  | [], _ => true
  | _ :: _, [] => false
  | a :: as, b :: bs => if a < b then true else if b < a then false else bytesLE as bs

/-- The members that `Marshal` writes for the entries of a map: the key quoted, the
raw message compacted with HTML escaping. `none` when a raw message is not valid
JSON. -/
def membersOf : List (Sigma fun _ : Bytes => Bytes) → Option (List (Bytes × JV))
  | [] => some []
  | e :: es =>
    match parse e.2, membersOf es with
    | some v, some ms => some ((quote e.1, v.mapStr escHTML) :: ms)
    | _, _ => none

/-- `json.MarshalIndent(m, "", "  ")` for `m` of type `map[string]json.RawMessage`:
a nil map gives `null`; otherwise the entries are written in key order, each raw
message compacted, and the result is indented. An empty raw message is taken as
non-nil and is therefore invalid. -/
def marshalIndentMap : Option RawMap → Except Error Bytes
  | none => .ok (ascii "null")
  | some m =>
    match membersOf (m.entries.insertionSort (fun a b => bytesLE a.1 b.1 = true)) with
    | none => .error (Error.jsonError 1)
    | some ms =>
      if (JV.obj ms).height ≤ maxNestingDepth then .ok ((JV.obj ms).indent 0)
      else .error (Error.jsonError 1)

/-- The members of the object that a valid document `b` consists of: key body, value
and the bytes of the value as written. -/
def topMembers (b : Bytes) : Option (List (Bytes × JV × Bytes)) :=
  match skipSpace b with
  | [] => none
  | c :: r =>
    if c = 0x7B then
      match skipSpace r with
      | [] => none
      | c1 :: r1 =>
        if c1 = 0x7D then some []
        else (pMembers (pValue maxNestingDepth 1) r.length (c1 :: r1)).map (fun p => p.1)
    else none

/-- `json.Unmarshal(b, &m)` for `m` of type `map[string]json.RawMessage`: a document
that is not valid JSON is a syntax error and leaves `m` as it is; `null` sets `m` to
nil; an object stores the bytes of each member value under the unquoted key (a nil
`m` is allocated first, a repeated key keeps the last value); any other value is a
type error. -/
def unmarshalMap (b : Bytes) (m : Option RawMap) : Option RawMap × Option Error :=
  match parse b with
  | none => (m, some (Error.jsonError 2))
  | some (JV.lit t) => if t = ascii "null" then (none, none) else (m, some (Error.jsonError 3))
  | some (JV.obj _) =>
    match topMembers b with
    | none => (m, some (Error.jsonError 2))
    | some ms =>
      (some (ms.foldl (fun acc x => acc.insert (unquote x.1) x.2.2) (m.getD ∅)), none)
  | some _ => (m, some (Error.jsonError 3))

/-- Go `int` on a 64-bit platform. -/
abbrev GoInt := { n : Int // -(2 ^ 63) ≤ n ∧ n < 2 ^ 63 }

/-- Decimal digits of a natural number, most significant first. -/
def natDigits : Nat → Nat → Bytes
  | 0, _ => []
  | f + 1, n => if n < 10 then [0x30 + n] else natDigits f (n / 10) ++ [0x30 + n % 10]

/-- `json.Marshal` of an `int`. -/
def marshalInt (v : GoInt) : Except Error Bytes :=
  if v.1 < 0 then .ok (0x2D :: natDigits 20 v.1.natAbs) else .ok (natDigits 20 v.1.natAbs)

/-- Value of a string of decimal digits. -/
def digitsVal (ds : Bytes) : Nat := ds.foldl (fun acc d => acc * 10 + (d - 0x30)) 0

/-- `strconv.ParseInt(s, 10, 64)` on a JSON number. -/
def parseInt (t : Bytes) : Option GoInt :=
  match t with
  | 0x2D :: ds =>
    if h : ds.all isDigit = true ∧ -(2 ^ 63) ≤ -(digitsVal ds : Int) ∧ -(digitsVal ds : Int) < 2 ^ 63
    then some ⟨-(digitsVal ds : Int), h.2⟩ else none
  | ds =>
    if h : ds.all isDigit = true ∧ -(2 ^ 63) ≤ (digitsVal ds : Int) ∧ (digitsVal ds : Int) < 2 ^ 63
    then some ⟨(digitsVal ds : Int), h.2⟩ else none

/-- `json.Unmarshal(raw, &v)` for a fresh `v` of type `int`: `null` leaves the zero
value, a number must be an integer in range, anything else is an error. -/
def unmarshalInt (raw : Bytes) : Except Error GoInt :=
  match parse raw with
  | some (JV.lit t) =>
    if t = ascii "null" then .ok ⟨0, by decide⟩
    else if validNumber t then
      match parseInt t with
      | some v => .ok v
      | none => .error (Error.jsonError 3)
    else .error (Error.jsonError 3)
  | some _ => .error (Error.jsonError 3)
  | none => .error (Error.jsonError 2)

/-- The model of `encoding/json` for a store whose element type has the given zero
value, encoder and decoder. -/
def goJsonFor {T : Type} (zero : T) (enc : T → Except Error Bytes)
    (dec : Bytes → Except Error T) : JsonLib T where
  zero := zero
  Marshal := enc
  Unmarshal := dec
  MarshalIndentMap := marshalIndentMap
  UnmarshalMap := unmarshalMap

/-- The model of `encoding/json` for `Store[int]`. -/
def goJson : JsonLib GoInt := goJsonFor ⟨0, by decide⟩ marshalInt unmarshalInt

/-- A file system without files. -/
def emptyFS : FS := fun _ => none

/-- The store that `NewStore` returns for a path at which there was no file. -/
def freshStore (path : Bytes) : Store := { path := path, data := some ∅ }

/-- The state after a call of `Store.Set` that returned; a panic leaves the state. -/
def afterSet {T : Type} (lib : JsonLib T) (st : Store × FS) (key : Bytes) (v : T)
    (env : Env) : Store × FS :=
  match Store.Set lib st.1 key v st.2 env with
  | .ret r => (r.1, r.2.1)
  | .panic => st

/-- Go values of type `func()`: the nil function or some function. -/
inductive GoFunc where
  | nil
  | fn (id : Nat)
  deriving DecidableEq, Repr

/-- `json.Marshal` of a `func()`: the type is unsupported, every value is rejected. -/
def marshalFunc (_ : GoFunc) : Except Error Bytes := .error (Error.jsonError 4)

/-- `json.Unmarshal(raw, &v)` for a fresh `v` of type `func()`: `null` leaves the nil
function, any other value is a type error. -/
def unmarshalFunc (raw : Bytes) : Except Error GoFunc :=
  match parse raw with
  | some (JV.lit t) => if t = ascii "null" then .ok GoFunc.nil else .error (Error.jsonError 3)
  | some _ => .error (Error.jsonError 3)
  | none => .error (Error.jsonError 2)

/-- The model of `encoding/json` for `Store[func()]`. -/
def goJsonFunc : JsonLib GoFunc := goJsonFor GoFunc.nil marshalFunc unmarshalFunc

/-- Whether the map of the store has an entry for `key`. -/
def Store.has (s : Store) (key : Bytes) : Bool :=
  (s.data.bind (fun m => m.lookup key)).isSome

/-- One call `Set(key, val)` with the outcomes the operating system gives it. -/
structure SetCall (T : Type) where
  key : Bytes
  val : T
  env : Env

/-- A sequence of calls of `Store.Set`, one after the other; the errors they return
are collected in order. -/
def runSets {T : Type} (lib : JsonLib T) :
    List (SetCall T) → Store × FS → Result (Store × FS × List (Option Error))
  | [], st => .ret (st.1, st.2, [])
  | c :: cs, st =>
    match Store.Set lib st.1 c.key c.val st.2 c.env with
    | .panic => .panic
    | .ret r =>
      match runSets lib cs (r.1, r.2.1) with
      | .panic => .panic
      | .ret q => .ret (q.1, q.2.1, r.2.2 :: q.2.2)

/-- Whether the persist step succeeds in every call of the sequence. -/
def persistsOK {T : Type} (lib : JsonLib T) : List (SetCall T) → Store × FS → Bool
  | [], _ => true
  | c :: cs, st =>
    match Store.Set lib st.1 c.key c.val st.2 c.env with
    | .panic => false
    | .ret r => (Store.persist lib r.1 st.2 c.env).2.isNone && persistsOK lib cs (r.1, r.2.1)

/-- Bytes that may stand in a JSON string as they are. -/
def isPlain (c : Nat) : Bool := !decide (c < 0x20) && !decide (c = 0x22) && !decide (c = 0x5C)

/-- The bodies of JSON strings: what the scanner accepts between two quotes. -/
inductive StrBody : Bytes → Prop
  | nil : StrBody []
  | plain (c : Nat) (b : Bytes) : isPlain c = true → StrBody b → StrBody (c :: b)
  | esc (e : Nat) (b : Bytes) : isSimpleEscape e = true → StrBody b → StrBody (0x5C :: e :: b)
  | uni (h1 h2 h3 h4 : Nat) (b : Bytes) :
      (isHex h1 && isHex h2 && isHex h3 && isHex h4) = true → StrBody b →
      StrBody (0x5C :: 0x75 :: h1 :: h2 :: h3 :: h4 :: b)

mutual
/-- Well-formed values: every literal is a JSON literal, every string body and key is
the body of a JSON string. -/
def JV.WF : JV → Prop
  | .lit t => validLit t = true ∧ ∀ c ∈ t, isLitChar c = true
  | .str b => StrBody b
  | .arr items => JV.WFList items
  | .obj ms => JV.WFMembers ms
def JV.WFList : List JV → Prop
  | [] => True
  | v :: vs => JV.WF v ∧ JV.WFList vs
def JV.WFMembers : List (Bytes × JV) → Prop
  | [] => True
  | (k, v) :: ms => StrBody k ∧ JV.WF v ∧ JV.WFMembers ms
end

/-- What may follow a value in a document: nothing or a byte that cannot continue a
literal. -/
def RestOK (rest : Bytes) : Prop := ∀ c r, rest = c :: r → isLitChar c = false

/-- The member that `Marshal` writes for one entry of the map whose raw message is
valid JSON. -/
def memberFor (e : Sigma fun _ : Bytes => Bytes) : Bytes × JV :=
  (quote e.1, ((parse e.2).getD (JV.lit [])).mapStr escHTML)

/-- The bytes that stand for a raw message in the file that `persist` writes, and
that `load` reads back as the raw message: the value compacted with HTML escaping and
indented one level deep. -/
def reindent (raw : Bytes) : Option Bytes :=
  (parse raw).map (fun v => (v.mapStr escHTML).indent 1)

mutual
/-- The text `Compact` produces for a value. -/
def JV.compact : JV → Bytes
  | .lit t => t
  | .str b => 0x22 :: b ++ [0x22]
  | .arr [] => [0x5B, 0x5D]
  | .arr (v :: vs) => 0x5B :: JV.compact v ++ JV.compactList vs ++ [0x5D]
  | .obj [] => [0x7B, 0x7D]
  | .obj ((k, v) :: ms) =>
    0x7B :: (0x22 :: k ++ [0x22, 0x3A]) ++ JV.compact v ++ JV.compactMembers ms ++ [0x7D]
def JV.compactList : List JV → Bytes
  | [] => []
  | v :: vs => 0x2C :: JV.compact v ++ JV.compactList vs
def JV.compactMembers : List (Bytes × JV) → Bytes
  | [] => []
  | (k, v) :: ms => 0x2C :: (0x22 :: k ++ [0x22, 0x3A]) ++ JV.compact v ++ JV.compactMembers ms
end

/-- `json.Marshal` of a `json.RawMessage`: the message compacted with HTML escaping;
a message that is not valid JSON is rejected (the empty message is taken as non-nil). -/
def marshalRaw (v : Bytes) : Except Error Bytes :=
  match parse v with
  | some j => .ok (j.mapStr escHTML).compact
  | none => .error (Error.jsonError 1)

/-- `json.Unmarshal(raw, &v)` for a fresh `v` of type `json.RawMessage`: the bytes of
the document without the white space around it. -/
def unmarshalRaw (raw : Bytes) : Except Error Bytes :=
  match parse raw with
  | some _ => .ok ((skipSpace raw).reverse.dropWhile isSpace).reverse
  | none => .error (Error.jsonError 2)

/-- The model of `encoding/json` for `Store[json.RawMessage]`. -/
def goJsonRaw : JsonLib Bytes := goJsonFor [] marshalRaw unmarshalRaw

/-- The JSON value that a text stands for: the scanned value with every string and
key unquoted (numbers stay as written). `none` when the text is not valid JSON. -/
def jsonValue (raw : Bytes) : Option JV := (parse raw).map (JV.mapStr unquote)

/-! ## Basic facts about the file system and the store operations -/

theorem tmp_ne_path (p : Bytes) : p ++ ascii ".tmp" ≠ p := by
  intro h
  have h1 := congrArg List.length h
  simp [ascii] at h1

theorem writeFile_other (fs : FS) (name data : Bytes) (perm umask : Nat) (o : WriteOutcome)
    (q : Bytes) (hq : q ≠ name) : (writeFile fs name data perm umask o).1 q = fs q := by
  unfold writeFile
  rcases o with _ | ⟨e, _ | part⟩ <;> simp [FS.update, hq]

theorem rename_fail_fs (fs : FS) (old new : Bytes) (fault : Option Error) (e : Error)
    (h : (rename fs old new fault).2 = some e) : (rename fs old new fault).1 = fs := by
  unfold rename at h ⊢
  cases fault with
  | some e1 => rfl
  | none =>
    cases hf : fs old with
    | none => simp
    | some f => simp [hf] at h

theorem persist_fail_path (lib : JsonLib T) (s : Store) (fs : FS) (env : Env) (e : Error)
    (h : (Store.persist lib s fs env).2 = some e) :
    (Store.persist lib s fs env).1 s.path = fs s.path := by
  unfold Store.persist at h ⊢
  cases hm : lib.MarshalIndentMap s.data with
  | error e1 => simp
  | ok b =>
    simp only [hm] at h ⊢
    have hw := writeFile_other fs (s.path ++ ascii ".tmp") b 0o644 env.umask env.write s.path
      (fun hq => tmp_ne_path s.path hq.symm)
    rcases hwf : writeFile fs (s.path ++ ascii ".tmp") b 0o644 env.umask env.write with
      ⟨fs1, _ | e1⟩
    · rw [hwf] at h hw
      simp only at h hw ⊢
      rw [rename_fail_fs _ _ _ _ e h]
      exact hw
    · rw [hwf] at hw
      simpa using hw

theorem get_of_lookup (lib : JsonLib T) (s : Store) (m : RawMap) (k raw : Bytes) (v : T)
    (hm : s.data = some m) (hl : m.lookup k = some raw) (hd : lib.Unmarshal raw = .ok v) :
    Store.Get lib s k = (v, none) := by
  simp [Store.Get, hm, hl, hd]

theorem get_of_absent (lib : JsonLib T) (s : Store) (k : Bytes)
    (h : s.data.bind (fun m => m.lookup k) = none) :
    Store.Get lib s k = (lib.zero, some Error.ErrNotFound) := by
  simp [Store.Get, h]

theorem set_ret (lib : JsonLib T) (s : Store) (m : RawMap) (k b : Bytes) (v : T) (fs : FS)
    (env : Env) (hm : s.data = some m) (henc : lib.Marshal v = .ok b) :
    Store.Set lib s k v fs env =
      .ret ({ s with data := some (m.insert k b) },
        (Store.persist lib { s with data := some (m.insert k b) } fs env).1,
        (Store.persist lib { s with data := some (m.insert k b) } fs env).2) := by
  simp [Store.Set, hm, henc]


/-! ## Set and Get -/

/-- C1. Round trip of Set and Get: in every store state, for every key (the empty one
included) and every value `v` that the codec encodes to `b` and decodes back from `b`,
every return of `Set(k, v)` leaves a store in which `Get(k)` yields `v` without error,
whatever was stored before and whatever the persist step did; and `Set` does return
whenever the map of the store is not nil. -/
theorem C1_set_get_roundtrip {T : Type} (lib : JsonLib T) (s : Store) (k b : Bytes) (v : T)
    (fs : FS) (env : Env) (henc : lib.Marshal v = .ok b) (hdec : lib.Unmarshal b = .ok v) :
    (∀ m, s.data = some m → ∃ r, Store.Set lib s k v fs env = .ret r) ∧
    (∀ r, Store.Set lib s k v fs env = .ret r → Store.Get lib r.1 k = (v, none)) := by
  constructor
  · intro m hm
    exact ⟨_, set_ret lib s m k b v fs env hm henc⟩
  · intro r hr
    cases hm : s.data with
    | none => simp [Store.Set, henc, hm] at hr
    | some m =>
      rw [set_ret lib s m k b v fs env hm henc] at hr
      cases hr
      exact get_of_lookup lib _ (m.insert k b) k b v rfl (AList.lookup_insert m) hdec

theorem C1_set_get_roundtrip_witness :
    (∀ m, (freshStore (ascii "db")).data = some m →
      ∃ r, Store.Set goJson (freshStore (ascii "db")) [] ⟨7, by decide⟩ emptyFS Env.good
        = .ret r) ∧
    (∀ r, Store.Set goJson (freshStore (ascii "db")) [] ⟨7, by decide⟩ emptyFS Env.good
        = .ret r → Store.Get goJson r.1 [] = (⟨7, by decide⟩, none)) :=
  C1_set_get_roundtrip goJson (freshStore (ascii "db")) [] (ascii "7") ⟨7, by decide⟩
    emptyFS Env.good rfl rfl

/-- C5. Encode failure is atomic: when the encoding of `v` fails with `e`, `Set(k, v)`
returns `e`, the store is exactly as before (so `k` keeps its old entry or stays
absent) and the file system is exactly as before: nothing was written. -/
theorem C5_set_encode_failure {T : Type} (lib : JsonLib T) (s : Store) (k : Bytes) (v : T)
    (fs : FS) (env : Env) (e : Error) (henc : lib.Marshal v = .error e) :
    Store.Set lib s k v fs env = .ret (s, fs, some e) := by
  simp [Store.Set, henc]

/-- C6. Persist failure in Set: for every store, key and value that encodes to `b`
and decodes back, every return of `Set(k, v)` with an error leaves the new encoded
value under `k` in the map, so that `Get(k)` yields `v`, and leaves under the path of
the store what the file system held there before the call; and on a store with a map
`Set` does return the error of the temporary-file write, or of the rename, when that
step fails. -/
theorem C6_set_persist_failure {T : Type} (lib : JsonLib T) (s : Store)
    (k b : Bytes) (v : T) (fs : FS) (env : Env)
    (henc : lib.Marshal v = .ok b) (hdec : lib.Unmarshal b = .ok v) :
    (∀ s1 fs1 e, Store.Set lib s k v fs env = .ret (s1, fs1, some e) →
      (∃ m, s.data = some m ∧ s1.data = some (m.insert k b)) ∧
      Store.Get lib s1 k = (v, none) ∧ fs1 s.path = fs s.path) ∧
    (∀ m doc e left, s.data = some m →
      lib.MarshalIndentMap (some (m.insert k b)) = .ok doc →
      env.write = .fail e left →
      ∃ s1 fs1, Store.Set lib s k v fs env = .ret (s1, fs1, some e)) ∧
    (∀ m doc e, s.data = some m →
      lib.MarshalIndentMap (some (m.insert k b)) = .ok doc →
      env.write = .ok → env.rename = some e →
      ∃ s1 fs1, Store.Set lib s k v fs env = .ret (s1, fs1, some e)) := by
  refine ⟨?_, ?_, ?_⟩
  · intro s1 fs1 e h
    cases hm : s.data with
    | none => simp [Store.Set, henc, hm] at h
    | some m =>
      rw [set_ret lib s m k b v fs env hm henc] at h
      simp only [Result.ret.injEq, Prod.mk.injEq] at h
      obtain ⟨h1, h2, h3⟩ := h
      subst h1
      refine ⟨⟨m, rfl, rfl⟩,
        get_of_lookup lib _ (m.insert k b) k b v rfl (AList.lookup_insert m) hdec, ?_⟩
      rw [← h2]
      exact persist_fail_path lib _ fs env e h3
  · intro m doc e left hm hdoc hw
    rw [set_ret lib s m k b v fs env hm henc]
    have : (Store.persist lib { s with data := some (m.insert k b) } fs env).2 = some e := by
      cases left <;> simp [Store.persist, hdoc, hw, writeFile]
    rw [this]
    exact ⟨_, _, rfl⟩
  · intro m doc e hm hdoc hw hr
    rw [set_ret lib s m k b v fs env hm henc]
    have : (Store.persist lib { s with data := some (m.insert k b) } fs env).2 = some e := by
      simp [Store.persist, hdoc, hw, writeFile, rename, hr]
    rw [this]
    exact ⟨_, _, rfl⟩

theorem C5_set_encode_failure_witness :
    Store.Set goJsonFunc (freshStore (ascii "db")) (ascii "k") (GoFunc.fn 1) emptyFS Env.good
      = .ret (freshStore (ascii "db"), emptyFS, some (Error.jsonError 4)) :=
  C5_set_encode_failure goJsonFunc (freshStore (ascii "db")) (ascii "k") (GoFunc.fn 1)
    emptyFS Env.good (Error.jsonError 4) rfl

theorem C6_set_persist_failure_witness :
    (∀ s1 fs1 e, Store.Set goJson (freshStore (ascii "db")) (ascii "k") ⟨7, by decide⟩ emptyFS
        ⟨none, .fail (Error.osError 28) none, none, 0o022⟩ = .ret (s1, fs1, some e) →
      (∃ m, (freshStore (ascii "db")).data = some m ∧
        s1.data = some (m.insert (ascii "k") (ascii "7"))) ∧
      Store.Get goJson s1 (ascii "k") = (⟨7, by decide⟩, none) ∧
      fs1 (freshStore (ascii "db")).path = emptyFS (freshStore (ascii "db")).path) ∧
    (∀ m doc e left, (freshStore (ascii "db")).data = some m →
      goJson.MarshalIndentMap (some (m.insert (ascii "k") (ascii "7"))) = .ok doc →
      (⟨none, .fail (Error.osError 28) none, none, 0o022⟩ : Env).write = .fail e left →
      ∃ s1 fs1, Store.Set goJson (freshStore (ascii "db")) (ascii "k") ⟨7, by decide⟩ emptyFS
        ⟨none, .fail (Error.osError 28) none, none, 0o022⟩ = .ret (s1, fs1, some e)) ∧
    (∀ m doc e, (freshStore (ascii "db")).data = some m →
      goJson.MarshalIndentMap (some (m.insert (ascii "k") (ascii "7"))) = .ok doc →
      (⟨none, .fail (Error.osError 28) none, none, 0o022⟩ : Env).write = .ok →
      (⟨none, .fail (Error.osError 28) none, none, 0o022⟩ : Env).rename = some e →
      ∃ s1 fs1, Store.Set goJson (freshStore (ascii "db")) (ascii "k") ⟨7, by decide⟩ emptyFS
        ⟨none, .fail (Error.osError 28) none, none, 0o022⟩ = .ret (s1, fs1, some e)) :=
  C6_set_persist_failure goJson (freshStore (ascii "db")) (ascii "k") (ascii "7")
    ⟨7, by decide⟩ emptyFS ⟨none, .fail (Error.osError 28) none, none, 0o022⟩ rfl rfl

/-! ## Absence and Delete -/

theorem delete_data (lib : JsonLib T) (s : Store) (k : Bytes) (fs : FS) (env : Env) :
    (Store.Delete lib s k fs env).1.data = s.data.map (fun m => m.erase k) := rfl

theorem has_false_iff (s : Store) (k : Bytes) :
    s.has k = false ↔ s.data.bind (fun m => m.lookup k) = none := by
  simp [Store.has]

/-- C3. Absence: `Get(k)` returns the zero value and `ErrNotFound` whenever the map has
no entry for `k`; that is the case for every key in the store that `NewStore` returns
for a path without a file, and for `k` after `Delete(k)` whatever its persist step did;
and `k` stays without entry under `Delete` of any key and under `Set` of any other
key, so until `k` is set again. -/
theorem C3_absence {T : Type} (lib : JsonLib T) (s : Store) (k : Bytes) :
    (s.has k = false → Store.Get lib s k = (lib.zero, some Error.ErrNotFound)) ∧
    (∀ path fs env s0 fs1, fs path = none → env.read = none →
      Store.NewStore lib path fs env = (.ok s0, fs1) → s0.has k = false) ∧
    (∀ fs env, (Store.Delete lib s k fs env).1.has k = false) ∧
    (∀ k1 fs env, s.has k = false → (Store.Delete lib s k1 fs env).1.has k = false) ∧
    (∀ k1 v fs env r, k1 ≠ k → s.has k = false → Store.Set lib s k1 v fs env = .ret r →
      r.1.has k = false) := by
  refine ⟨?_, ?_, ?_, ?_, ?_⟩
  · intro h
    exact get_of_absent lib s k ((has_false_iff s k).1 h)
  · intro path fs env s0 fs1 hf hr h
    unfold Store.NewStore Store.load readFile at h
    simp only [hr, hf, if_true] at h
    split at h
    · simp at h
    · next s1 fs2 heq =>
      simp only [Prod.mk.injEq] at heq h
      obtain ⟨h1, -⟩ := heq
      obtain ⟨h2, -⟩ := h
      cases h2
      subst h1
      simp [Store.has]
  · intro fs env
    rw [has_false_iff, delete_data]
    cases s.data with
    | none => rfl
    | some m => simp [AList.lookup_erase]
  · intro k1 fs env h
    rw [has_false_iff] at h ⊢
    rw [delete_data]
    cases hd : s.data with
    | none => rfl
    | some m =>
      rw [hd] at h
      simp only [Option.some_bind, Option.map_some'] at h ⊢
      by_cases hk : k = k1
      · subst hk; exact AList.lookup_erase k m
      · rw [AList.lookup_erase_ne hk]; exact h
  · intro k1 v fs env r hk h hr
    rw [has_false_iff] at h ⊢
    unfold Store.Set at hr
    split at hr
    · cases hr; exact h
    · split at hr
      · cases hr
      · next m hm =>
        cases hr
        rw [hm] at h
        simp only [Option.some_bind] at h ⊢
        rw [AList.lookup_insert_ne (Ne.symm hk)]; exact h

/-! ## Keys -/

theorem unmarshalInt_ne_notFound (raw : Bytes) :
    unmarshalInt raw ≠ .error Error.ErrNotFound := by
  unfold unmarshalInt
  intro h
  split at h
  · split at h
    · cases h
    · split at h
      · split at h <;> cases h
      · cases h
  · cases h
  · cases h

/-- C7. Keys is exact and total: in every store state `Keys` returns no error and a
list without repetition whose members are exactly the keys that have an entry in the
map; provided the decoder of the element type never fails with `ErrNotFound` itself, a
key is in that list exactly when `Get` of it does not fail with `ErrNotFound`. On a fresh
store, after `Set("a", 1)` and `Set("b", 2)`, the list is `a`, `b` in some order. -/
theorem C7_keys_exact {T : Type} (lib : JsonLib T) (s : Store)
    (hdec : ∀ raw, lib.Unmarshal raw ≠ .error Error.ErrNotFound) :
    (Store.Keys s).2 = none ∧ (Store.Keys s).1.Nodup ∧
    (∀ k, k ∈ (Store.Keys s).1 ↔ s.has k = true) ∧
    (∀ k, k ∈ (Store.Keys s).1 ↔ (Store.Get lib s k).2 ≠ some Error.ErrNotFound) ∧
    (∀ path fs env1 env2,
      (Store.Keys (afterSet goJson (afterSet goJson (freshStore path, fs) (ascii "a")
        ⟨1, by decide⟩ env1) (ascii "b") ⟨2, by decide⟩ env2).1).1.Perm
        [ascii "a", ascii "b"]) := by
  have hmem : ∀ k, k ∈ (Store.Keys s).1 ↔ s.has k = true := by
    intro k
    unfold Store.Keys Store.has
    cases s.data with
    | none => simp
    | some m => simp [← AList.mem_keys, AList.lookup_isSome]
  refine ⟨?_, ?_, hmem, ?_, ?_⟩
  · unfold Store.Keys; cases s.data <;> rfl
  · unfold Store.Keys
    cases s.data with
    | none => simp
    | some m => exact m.keys_nodup
  · intro k
    rw [hmem]
    unfold Store.has Store.Get
    cases hl : s.data.bind (fun m => m.lookup k) with
    | none => simp
    | some raw =>
      simp only [Option.isSome_some, true_iff]
      cases hu : lib.Unmarshal raw with
      | ok v => simp
      | error e =>
        simp only [ne_eq, Option.some.injEq]
        intro he
        subst he
        exact hdec raw hu
  · intro path fs env1 env2
    have h : (Store.Keys (afterSet goJson (afterSet goJson (freshStore path, fs) (ascii "a")
        ⟨1, by decide⟩ env1) (ascii "b") ⟨2, by decide⟩ env2).1).1
        = [ascii "b", ascii "a"] := rfl
    rw [h]
    exact List.Perm.swap _ _ _

theorem C7_keys_exact_witness :
    (Store.Keys (freshStore (ascii "db"))).2 = none ∧
    (Store.Keys (freshStore (ascii "db"))).1.Nodup ∧
    (∀ k, k ∈ (Store.Keys (freshStore (ascii "db"))).1 ↔
      (freshStore (ascii "db")).has k = true) ∧
    (∀ k, k ∈ (Store.Keys (freshStore (ascii "db"))).1 ↔
      (Store.Get goJson (freshStore (ascii "db")) k).2 ≠ some Error.ErrNotFound) ∧
    (∀ path fs env1 env2,
      (Store.Keys (afterSet goJson (afterSet goJson (freshStore path, fs) (ascii "a")
        ⟨1, by decide⟩ env1) (ascii "b") ⟨2, by decide⟩ env2).1).1.Perm
        [ascii "a", ascii "b"]) :=
  C7_keys_exact goJson (freshStore (ascii "db")) unmarshalInt_ne_notFound

/-! ## Sequences of Set on distinct keys -/

theorem runSets_spec {T : Type} (lib : JsonLib T) :
    ∀ (cs : List (SetCall T)) (s : Store) (fs : FS) (m : RawMap), s.data = some m →
      (cs.map (fun c => c.key)).Nodup →
      (∀ c ∈ cs, ∃ b, lib.Marshal c.val = .ok b) →
      ∃ s1 fs1 errs m1, runSets lib cs (s, fs) = .ret (s1, fs1, errs) ∧
        s1.data = some m1 ∧ errs.length = cs.length ∧
        (persistsOK lib cs (s, fs) = true → ∀ e ∈ errs, e = none) ∧
        (∀ c ∈ cs, ∀ b, lib.Marshal c.val = .ok b → m1.lookup c.key = some b) ∧
        (∀ k, k ∉ cs.map (fun c => c.key) → m1.lookup k = m.lookup k) := by
  intro cs
  induction cs with
  | nil =>
    intro s fs m hm _ _
    exact ⟨s, fs, [], m, rfl, hm, rfl, by simp, by simp, by simp⟩
  | cons c cs ih =>
    intro s fs m hm hnd hcodec
    obtain ⟨b, hb⟩ := hcodec c (List.mem_cons_self _ _)
    rw [List.map_cons, List.nodup_cons] at hnd
    have hset := set_ret lib s m c.key b c.val fs c.env hm hb
    obtain ⟨s1, fs1, errs, m1, hrun, hd, hlen, hok, hin, hout⟩ :=
      ih { s with data := some (m.insert c.key b) }
        (Store.persist lib { s with data := some (m.insert c.key b) } fs c.env).1
        (m.insert c.key b) rfl hnd.2 (fun c1 h1 => hcodec c1 (List.mem_cons_of_mem _ h1))
    refine ⟨s1, fs1,
      (Store.persist lib { s with data := some (m.insert c.key b) } fs c.env).2 :: errs, m1,
      ?_, hd, ?_, ?_, ?_, ?_⟩
    · simp only [runSets, hset, hrun]
    · simp [hlen]
    · intro hp e he
      simp only [persistsOK, hset, Bool.and_eq_true, Option.isNone_iff_eq_none] at hp
      rcases List.mem_cons.1 he with h | h
      · rw [h]; exact hp.1
      · exact hok hp.2 e h
    · intro c1 hc1 b1 hb1
      rcases List.mem_cons.1 hc1 with h | h
      · subst h
        rw [hb] at hb1
        cases hb1
        rw [hout c1.key hnd.1]
        exact AList.lookup_insert m
      · exact hin c1 h b1 hb1
    · intro k hk
      rw [List.map_cons, List.mem_cons, not_or] at hk
      rw [hout k hk.2]
      exact AList.lookup_insert_ne hk.1

/-- C10. No lost updates among distinct keys: let `calls` be calls of `Set` on pairwise
distinct keys with values that the codec encodes and decodes back, and let `order` be
any permutation of them. Run one after the other in that order on a store with a map,
all calls return; when the persist step succeeds in each of them, none returns an
error; afterwards `Get` of the key of each call yields the value of that call; and
every key that no call sets has the entry it had before. -/
theorem C10_distinct_keys_no_lost_update {T : Type} (lib : JsonLib T)
    (calls order : List (SetCall T)) (s : Store) (m : RawMap) (fs : FS)
    (hm : s.data = some m) (hperm : order.Perm calls)
    (hkeys : (calls.map (fun c => c.key)).Nodup)
    (hcodec : ∀ c ∈ calls, ∃ b, lib.Marshal c.val = .ok b ∧ lib.Unmarshal b = .ok c.val) :
    ∃ s1 fs1 errs, runSets lib order (s, fs) = .ret (s1, fs1, errs) ∧
      errs.length = calls.length ∧
      (persistsOK lib order (s, fs) = true → ∀ e ∈ errs, e = none) ∧
      (∀ c ∈ calls, Store.Get lib s1 c.key = (c.val, none)) ∧
      (∀ k, k ∉ calls.map (fun c => c.key) →
        s1.data.bind (fun m1 => m1.lookup k) = s.data.bind (fun m0 => m0.lookup k)) := by
  have hnd : (order.map (fun c => c.key)).Nodup :=
    (List.Perm.nodup_iff (hperm.map _)).2 hkeys
  obtain ⟨s1, fs1, errs, m1, hrun, hd, hlen, hok, hin, hout⟩ :=
    runSets_spec lib order s fs m hm hnd (fun c hc => by
      obtain ⟨b, hb, _⟩ := hcodec c (hperm.mem_iff.1 hc)
      exact ⟨b, hb⟩)
  refine ⟨s1, fs1, errs, hrun, by rw [hlen, hperm.length_eq], hok, ?_, ?_⟩
  · intro c hc
    obtain ⟨b, hb, hdec⟩ := hcodec c hc
    exact get_of_lookup lib s1 m1 c.key b c.val hd (hin c (hperm.mem_iff.2 hc) b hb) hdec
  · intro k hk
    rw [hd, hm]
    simp only [Option.some_bind]
    exact hout k (fun h => hk ((hperm.map _).mem_iff.1 h))

theorem C10_distinct_keys_no_lost_update_witness :
    ∃ s1 fs1 errs,
      runSets goJson
        [⟨ascii "k1", ⟨1, by decide⟩, Env.good⟩, ⟨ascii "k0", ⟨0, by decide⟩, Env.good⟩]
        (freshStore (ascii "db"), emptyFS) = .ret (s1, fs1, errs) ∧
      errs.length = ([⟨ascii "k0", ⟨0, by decide⟩, Env.good⟩,
        ⟨ascii "k1", ⟨1, by decide⟩, Env.good⟩] : List (SetCall GoInt)).length ∧
      (persistsOK goJson
        [⟨ascii "k1", ⟨1, by decide⟩, Env.good⟩, ⟨ascii "k0", ⟨0, by decide⟩, Env.good⟩]
        (freshStore (ascii "db"), emptyFS) = true → ∀ e ∈ errs, e = none) ∧
      (∀ c ∈ ([⟨ascii "k0", ⟨0, by decide⟩, Env.good⟩,
        ⟨ascii "k1", ⟨1, by decide⟩, Env.good⟩] : List (SetCall GoInt)),
        Store.Get goJson s1 c.key = (c.val, none)) ∧
      (∀ k, k ∉ ([⟨ascii "k0", ⟨0, by decide⟩, Env.good⟩,
        ⟨ascii "k1", ⟨1, by decide⟩, Env.good⟩] : List (SetCall GoInt)).map (fun c => c.key) →
        s1.data.bind (fun m1 => m1.lookup k)
          = (freshStore (ascii "db")).data.bind (fun m0 => m0.lookup k)) :=
  C10_distinct_keys_no_lost_update goJson
    [⟨ascii "k0", ⟨0, by decide⟩, Env.good⟩, ⟨ascii "k1", ⟨1, by decide⟩, Env.good⟩]
    [⟨ascii "k1", ⟨1, by decide⟩, Env.good⟩, ⟨ascii "k0", ⟨0, by decide⟩, Env.good⟩]
    (freshStore (ascii "db")) ∅ emptyFS rfl (List.Perm.swap _ _ _) (by decide)
    (by
      intro c hc
      simp only [List.mem_cons, List.mem_singleton, List.not_mem_nil, or_false] at hc
      rcases hc with h | h <;> subst h
      · exact ⟨ascii "0", rfl, rfl⟩
      · exact ⟨ascii "1", rfl, rfl⟩)

/-! ## Construction -/

theorem applyUmask_disjoint (perm umask : Nat) (h : perm &&& umask = 0) :
    applyUmask perm umask = perm := by
  simp [applyUmask, h]

/-- C8 (as amended). Empty-store bootstrap: for a path without a file, when the read
reports the missing file and the creation goes through, `NewStore` returns a store
with an empty map and leaves under the path a file with content `{}` whose mode is
0644 with the bits of the process umask cleared, so 0644 when the umask has none of
these bits, as under umask 022; a second `NewStore` on that path, reading without
error, succeeds, leaves the file as it is and returns a store with an empty key
list. -/
theorem C8_empty_store_bootstrap {T : Type} (zero : T) (enc : T → Except Error Bytes)
    (dec : Bytes → Except Error T) (path : Bytes) (fs : FS) (env env2 : Env)
    (hf : fs path = none) (hr : env.read = none) (hw : env.write = .ok)
    (hr2 : env2.read = none) :
    Store.NewStore (goJsonFor zero enc dec) path fs env
      = (.ok (freshStore path),
        fs.update path (some ⟨ascii "{}", applyUmask 0o644 env.umask⟩)) ∧
    (0o644 &&& env.umask = 0 → applyUmask 0o644 env.umask = 0o644) ∧
    (env.umask = 0o022 → applyUmask 0o644 env.umask = 0o644) ∧
    (freshStore path).data = some ∅ ∧
    (Store.Keys (freshStore path)).1 = [] ∧
    ∃ s2, Store.NewStore (goJsonFor zero enc dec) path
        (fs.update path (some ⟨ascii "{}", applyUmask 0o644 env.umask⟩)) env2
        = (.ok s2, fs.update path (some ⟨ascii "{}", applyUmask 0o644 env.umask⟩)) ∧
      (Store.Keys s2).1 = [] ∧ (Store.Keys s2).2 = none := by
  refine ⟨?_, applyUmask_disjoint _ _, ?_, rfl, rfl, ⟨freshStore path, ?_, rfl, rfl⟩⟩
  · simp [Store.NewStore, Store.load, readFile, hr, hf, hw, writeFile, freshStore]
  · intro h; rw [h]; decide
  · have hu : unmarshalMap [123, 125] (some ∅) = (some ∅, none) := rfl
    simp [Store.NewStore, Store.load, readFile, hr2, FS.update, goJsonFor, freshStore, hu,
      ascii]

theorem C8_empty_store_bootstrap_witness :
    Store.NewStore (goJsonFor ⟨0, by decide⟩ marshalInt unmarshalInt) (ascii "db") emptyFS
        Env.good
      = (.ok (freshStore (ascii "db")),
        emptyFS.update (ascii "db") (some ⟨ascii "{}", applyUmask 0o644 Env.good.umask⟩)) ∧
    (0o644 &&& Env.good.umask = 0 → applyUmask 0o644 Env.good.umask = 0o644) ∧
    (Env.good.umask = 0o022 → applyUmask 0o644 Env.good.umask = 0o644) ∧
    (freshStore (ascii "db")).data = some ∅ ∧
    (Store.Keys (freshStore (ascii "db"))).1 = [] ∧
    ∃ s2, Store.NewStore (goJsonFor ⟨0, by decide⟩ marshalInt unmarshalInt) (ascii "db")
        (emptyFS.update (ascii "db") (some ⟨ascii "{}", applyUmask 0o644 Env.good.umask⟩))
        Env.good
        = (.ok s2,
          emptyFS.update (ascii "db") (some ⟨ascii "{}", applyUmask 0o644 Env.good.umask⟩)) ∧
      (Store.Keys s2).1 = [] ∧ (Store.Keys s2).2 = none :=
  C8_empty_store_bootstrap ⟨0, by decide⟩ marshalInt unmarshalInt (ascii "db") emptyFS
    Env.good Env.good rfl rfl rfl rfl

/-- C8 as stated fails under a umask that has bits of 0644: with umask 077 the file
that `NewStore` creates has mode 0600, not 0644. -/
theorem C8_umask_counterexample :
    ((Store.NewStore goJson (ascii "db") emptyFS
        ⟨none, WriteOutcome.ok, none, 0o077⟩).2 (ascii "db")) = some ⟨ascii "{}", 0o600⟩ ∧
    (0o600 : Nat) ≠ 0o644 :=
  ⟨rfl, by decide⟩

/-- C9. A backing file whose content is the document `null` is not rejected:
`NewStore` returns a store without error, the map of that store is nil, `Keys` is
empty, and the first `Set` on the store panics. A top-level array, number or string
and malformed text are rejected. -/
theorem C9_null_document_is_loaded :
    Store.NewStore goJson (ascii "db")
        (emptyFS.update (ascii "db") (some ⟨ascii "null", 0o644⟩)) Env.good
      = (.ok ⟨ascii "db", none⟩, emptyFS.update (ascii "db") (some ⟨ascii "null", 0o644⟩)) ∧
    (Store.Keys ⟨ascii "db", none⟩).1 = [] ∧
    Store.Set goJson ⟨ascii "db", none⟩ (ascii "k") ⟨1, by decide⟩
        (emptyFS.update (ascii "db") (some ⟨ascii "null", 0o644⟩)) Env.good = .panic ∧
    (Store.NewStore goJson (ascii "db")
        (emptyFS.update (ascii "db") (some ⟨ascii "[1]", 0o644⟩)) Env.good).1
      = .error (Error.jsonError 3) ∧
    (Store.NewStore goJson (ascii "db")
        (emptyFS.update (ascii "db") (some ⟨ascii "12", 0o644⟩)) Env.good).1
      = .error (Error.jsonError 3) ∧
    (Store.NewStore goJson (ascii "db")
        (emptyFS.update (ascii "db") (some ⟨ascii "\"a\"", 0o644⟩)) Env.good).1
      = .error (Error.jsonError 3) ∧
    (Store.NewStore goJson (ascii "db")
        (emptyFS.update (ascii "db") (some ⟨ascii "\x7b\"a\":", 0o644⟩)) Env.good).1
      = .error (Error.jsonError 2) :=
  ⟨rfl, rfl, rfl, rfl, rfl, rfl, rfl⟩

/-! ## JSON strings -/

theorem simpleEscape_ne_u (e : Nat) (h : isSimpleEscape e = true) : e ≠ 0x75 := by
  intro he; subst he; simp [isSimpleEscape] at h

theorem pStr_of_body {b : Bytes} (hb : StrBody b) (rest : Bytes) :
    pStr (b ++ 0x22 :: rest) = some (b, rest) := by
  induction hb with
  | nil => unfold pStr; simp
  | plain c b hc _ ih =>
    simp only [isPlain, Bool.and_eq_true, Bool.not_eq_true', decide_eq_false_iff_not] at hc
    rw [List.cons_append]; unfold pStr
    simp [hc.1.2, hc.2, hc.1.1, ih]
  | esc e b he _ ih =>
    simp only [List.cons_append]; unfold pStr
    simp [simpleEscape_ne_u e he, he, ih]
  | uni h1 h2 h3 h4 b hh _ ih =>
    simp only [Bool.and_eq_true] at hh
    simp only [List.cons_append]; unfold pStr
    simp [hh.1.1.1, hh.1.1.2, hh.1.2, hh.2, ih]

theorem body_of_pStr : ∀ (n : Nat) (bs b rest : Bytes), bs.length ≤ n →
    pStr bs = some (b, rest) → StrBody b ∧ bs = b ++ 0x22 :: rest := by
  intro n
  induction n with
  | zero =>
    intro bs b rest hl h
    have : bs = [] := List.length_eq_zero.1 (Nat.le_zero.1 hl)
    subst this
    simp [pStr] at h
  | succ n ih =>
    intro bs b rest hl h
    cases bs with
    | nil => simp [pStr] at h
    | cons c r =>
      unfold pStr at h
      split at h
      · next hc =>
        simp only [Option.some.injEq, Prod.mk.injEq] at h
        obtain ⟨h1, h2⟩ := h
        subst h1 h2 hc
        exact ⟨StrBody.nil, rfl⟩
      · next hc =>
        split at h
        · next hbs =>
          subst hbs
          cases r with
          | nil => simp at h
          | cons e r2 =>
            simp only at h
            split at h
            · next he =>
              subst he
              match r2, h with
              | h1 :: h2 :: h3 :: h4 :: r3, h =>
                simp only at h
                split at h
                · next hh =>
                  cases hp : pStr r3 with
                  | none => simp [hp] at h
                  | some p =>
                    obtain ⟨pb, pr⟩ := p
                    simp only [hp, Option.map_some', Option.some.injEq, Prod.mk.injEq] at h
                    obtain ⟨hb1, hr1⟩ := h
                    subst hb1 hr1
                    have := ih r3 pb pr (by simp at hl; omega) hp
                    exact ⟨StrBody.uni h1 h2 h3 h4 pb hh this.1, by rw [this.2]; rfl⟩
                · cases h
              | [], h => simp at h
              | [_], h => simp at h
              | [_, _], h => simp at h
              | [_, _, _], h => simp at h
            · next he =>
              split at h
              · next hs =>
                cases hp : pStr r2 with
                | none => simp [hp] at h
                | some p =>
                  obtain ⟨pb, pr⟩ := p
                  simp only [hp, Option.map_some', Option.some.injEq, Prod.mk.injEq] at h
                  obtain ⟨hb1, hr1⟩ := h
                  subst hb1 hr1
                  have := ih r2 pb pr (by simp at hl; omega) hp
                  exact ⟨StrBody.esc e pb hs this.1, by rw [this.2]; rfl⟩
              · cases h
        · next hbs =>
          split at h
          · cases h
          · next hlt =>
            cases hp : pStr r with
            | none => simp [hp] at h
            | some p =>
              obtain ⟨pb, pr⟩ := p
              simp only [hp, Option.map_some', Option.some.injEq, Prod.mk.injEq] at h
              obtain ⟨hb1, hr1⟩ := h
              subst hb1 hr1
              have := ih r pb pr (by simp at hl; omega) hp
              refine ⟨StrBody.plain c pb ?_ this.1, by rw [this.2]; rfl⟩
              simp [isPlain, hc, hbs, hlt]

theorem escHTML_special (c : Nat) (e r : Bytes) (h : escByte c = some e) :
    escHTML (c :: r) = e ++ escHTML r := by
  match r with
  | [] => simp [escHTML, h]
  | [_] => simp [escHTML, h]
  | _ :: _ :: _ => simp [escHTML, h]

theorem escHTML_plain (c : Nat) (r : Bytes) (h : escByte c = none) (h2 : c ≠ 0xE2) :
    escHTML (c :: r) = c :: escHTML r := by
  match r with
  | [] => simp [escHTML, h]
  | [_] => simp [escHTML, h]
  | _ :: _ :: _ => simp [escHTML, h, h2]

theorem escHTML_E2 (c1 c2 : Nat) (r : Bytes) :
    escHTML (0xE2 :: c1 :: c2 :: r) =
      if c1 = 0x80 ∧ c2 = 0xA8 then ascii "\\u2028" ++ escHTML r
      else if c1 = 0x80 ∧ c2 = 0xA9 then ascii "\\u2029" ++ escHTML r
      else 0xE2 :: escHTML (c1 :: c2 :: r) := by
  simp [escHTML, escByte]

theorem escHTML_E2_short (r : Bytes) (h : r.length < 2) :
    escHTML (0xE2 :: r) = 0xE2 :: escHTML r := by
  match r, h with
  | [], _ => simp [escHTML, escByte]
  | [_], _ => simp [escHTML, escByte]

theorem StrBody.tail_of_plain {c : Nat} {b : Bytes} (h : StrBody (c :: b)) (hc : c ≠ 0x5C) :
    StrBody b := by
  cases h with
  | plain _ _ _ hb => exact hb
  | esc => exact absurd rfl hc
  | uni => exact absurd rfl hc

theorem strBody_escHTML : ∀ (n : Nat) (b : Bytes), b.length ≤ n → StrBody b →
    StrBody (escHTML b) := by
  intro n
  induction n with
  | zero =>
    intro b hl _
    have : b = [] := List.length_eq_zero.1 (Nat.le_zero.1 hl)
    subst this
    simp [escHTML]; exact StrBody.nil
  | succ n ih =>
    intro b hl hb
    cases hb with
    | nil => simp [escHTML]; exact StrBody.nil
    | plain c b1 hc hb1 =>
      have hl1 : b1.length ≤ n := by simp at hl; omega
      cases he : escByte c with
      | some e =>
        rw [escHTML_special c e b1 he]
        have ih1 := ih b1 hl1 hb1
        unfold escByte at he
        split at he
        · cases he; exact StrBody.uni _ _ _ _ _ (by decide) ih1
        · split at he
          · cases he; exact StrBody.uni _ _ _ _ _ (by decide) ih1
          · split at he
            · cases he; exact StrBody.uni _ _ _ _ _ (by decide) ih1
            · cases he
      | none =>
        by_cases hE : c = 0xE2
        · subst hE
          match b1, hb1, hl1 with
          | [], _, _ => rw [escHTML_E2_short _ (by simp)]; exact StrBody.plain _ _ hc (by simp [escHTML]; exact StrBody.nil)
          | [x], hb1, hl1 =>
            rw [escHTML_E2_short _ (by simp)]
            exact StrBody.plain _ _ hc (ih _ hl1 hb1)
          | c1 :: c2 :: r, hb1, hl1 =>
            rw [escHTML_E2]
            split
            · next h =>
              obtain ⟨h1, h2⟩ := h
              subst h1 h2
              have hr : StrBody r := (hb1.tail_of_plain (by decide)).tail_of_plain (by decide)
              exact StrBody.uni _ _ _ _ _ (by decide) (ih r (by simp at hl1; omega) hr)
            · split
              · next h =>
                obtain ⟨h1, h2⟩ := h
                subst h1 h2
                have hr : StrBody r := (hb1.tail_of_plain (by decide)).tail_of_plain (by decide)
                exact StrBody.uni _ _ _ _ _ (by decide) (ih r (by simp at hl1; omega) hr)
              · exact StrBody.plain _ _ hc (ih _ hl1 hb1)
        · rw [escHTML_plain c b1 he hE]
          exact StrBody.plain _ _ hc (ih _ hl1 hb1)
    | esc e b1 he hb1 =>
      have hl1 : b1.length ≤ n := by simp at hl; omega
      have h1 : escByte e = none ∧ e ≠ 0xE2 := by
        simp only [isSimpleEscape, Bool.or_eq_true, decide_eq_true_eq] at he
        rcases he with ((((((h | h) | h) | h) | h) | h) | h) | h <;> subst h <;> decide
      rw [escHTML_plain _ _ (by decide) (by decide), escHTML_plain _ _ h1.1 h1.2]
      exact StrBody.esc e _ he (ih _ hl1 hb1)
    | uni h1 h2 h3 h4 b1 hh hb1 =>
      have hl1 : b1.length ≤ n := by simp at hl; omega
      have hx : ∀ h, isHex h = true → escByte h = none ∧ h ≠ 0xE2 := by
        intro h hh
        simp only [isHex, isDigit, Bool.or_eq_true, Bool.and_eq_true, decide_eq_true_eq] at hh
        constructor
        · unfold escByte
          have a1 : h ≠ 0x3C := by omega
          have a2 : h ≠ 0x3E := by omega
          have a3 : h ≠ 0x26 := by omega
          simp [a1, a2, a3]
        · omega
      simp only [Bool.and_eq_true] at hh
      rw [escHTML_plain _ _ (by decide) (by decide), escHTML_plain _ _ (by decide) (by decide),
        escHTML_plain _ _ (hx h1 hh.1.1.1).1 (hx h1 hh.1.1.1).2,
        escHTML_plain _ _ (hx h2 hh.1.1.2).1 (hx h2 hh.1.1.2).2,
        escHTML_plain _ _ (hx h3 hh.1.2).1 (hx h3 hh.1.2).2,
        escHTML_plain _ _ (hx h4 hh.2).1 (hx h4 hh.2).2]
      exact StrBody.uni h1 h2 h3 h4 _ (by simp [hh.1.1.1, hh.1.1.2, hh.1.2, hh.2]) (ih _ hl1 hb1)

/-! ## Values that the scanner returns -/

theorem wfList_iff (vs : List JV) : JV.WFList vs ↔ ∀ v ∈ vs, JV.WF v := by
  induction vs with
  | nil => simp [JV.WFList]
  | cons v vs ih => simp [JV.WFList, ih]

theorem wfMembers_iff (ms : List (Bytes × JV)) :
    JV.WFMembers ms ↔ ∀ p ∈ ms, StrBody p.1 ∧ JV.WF p.2 := by
  induction ms with
  | nil => simp [JV.WFMembers]
  | cons p ms ih =>
    obtain ⟨k, v⟩ := p
    simp [JV.WFMembers, ih, and_assoc]

theorem heightList_le (vs : List JV) (h : Nat) :
    JV.heightList vs ≤ h ↔ ∀ v ∈ vs, JV.height v ≤ h := by
  induction vs with
  | nil => simp [JV.heightList]
  | cons v vs ih => simp [JV.heightList, ih]

theorem heightMembers_le (ms : List (Bytes × JV)) (h : Nat) :
    JV.heightMembers ms ≤ h ↔ ∀ p ∈ ms, JV.height p.2 ≤ h := by
  induction ms with
  | nil => simp [JV.heightMembers]
  | cons p ms ih =>
    obtain ⟨k, v⟩ := p
    simp [JV.heightMembers, ih]

theorem pElems_sound (P : JV → Prop) (pv : Bytes → Option (JV × Bytes))
    (hpv : ∀ bs v r, pv bs = some (v, r) → P v) :
    ∀ (n : Nat) (bs : Bytes) (vs : List JV) (r : Bytes),
      pElems pv n bs = some (vs, r) → ∀ v ∈ vs, P v := by
  intro n
  induction n with
  | zero => intro bs vs r h; simp [pElems] at h
  | succ n ih =>
    intro bs vs r h
    unfold pElems at h
    split at h
    · cases h
    · next v1 r1 hv =>
      split at h
      · next c r2 hs =>
        split at h
        · cases h
          intro v hv1
          rw [List.mem_singleton] at hv1
          subst hv1
          exact hpv _ _ _ hv
        · split at h
          · cases hp : pElems pv n (skipSpace r2) with
            | none => simp [hp] at h
            | some p =>
              obtain ⟨pvs, pr⟩ := p
              simp only [hp, Option.map_some', Option.some.injEq, Prod.mk.injEq] at h
              obtain ⟨h1, h2⟩ := h
              subst h1 h2
              intro v hv1
              rcases List.mem_cons.1 hv1 with hh | hh
              · subst hh; exact hpv _ _ _ hv
              · exact ih _ _ _ hp v hh
          · cases h
      · cases h

theorem pMembers_sound (P : JV → Prop) (pv : Bytes → Option (JV × Bytes))
    (hpv : ∀ bs v r, pv bs = some (v, r) → P v) :
    ∀ (n : Nat) (bs : Bytes) (ms : List (Bytes × JV × Bytes)) (r : Bytes),
      pMembers pv n bs = some (ms, r) → ∀ p ∈ ms, StrBody p.1 ∧ P p.2.1 := by
  intro n
  induction n with
  | zero => intro bs vs r h; simp [pMembers] at h
  | succ n ih =>
    intro bs ms r h
    unfold pMembers at h
    split at h
    · cases h
    · next q r0 =>
      split at h
      · split at h
        · cases h
        · next k rk hk =>
          have hkb := (body_of_pStr _ _ _ _ (Nat.le_refl _) hk).1
          split at h
          · cases h
          · next c r1 hs =>
            split at h
            · simp only at h
              split at h
              · cases h
              · next v r2 hv =>
                split at h
                · cases h
                · next c2 r3 hs2 =>
                  split at h
                  · cases h
                    intro p hp
                    rw [List.mem_singleton] at hp
                    subst hp
                    exact ⟨hkb, hpv _ _ _ hv⟩
                  · split at h
                    · cases hp : pMembers pv n (skipSpace r3) with
                      | none => simp [hp] at h
                      | some p =>
                        obtain ⟨pms, pr⟩ := p
                        simp only [hp, Option.map_some', Option.some.injEq, Prod.mk.injEq] at h
                        obtain ⟨h1, h2⟩ := h
                        subst h1 h2
                        intro p hp1
                        rcases List.mem_cons.1 hp1 with hh | hh
                        · subst hh; exact ⟨hkb, hpv _ _ _ hv⟩
                        · exact ih _ _ _ hp p hh
                    · cases h
            · cases h
      · cases h
theorem pLit_sound (bs t r : Bytes) (h : pLit bs = some (t, r)) :
    (validLit t = true ∧ ∀ c ∈ t, isLitChar c = true) ∧
      t = bs.takeWhile isLitChar ∧ r = bs.dropWhile isLitChar := by
  unfold pLit at h
  simp only at h
  split at h
  · next hv =>
    simp only [Option.some.injEq, Prod.mk.injEq] at h
    obtain ⟨h1, h2⟩ := h
    subst h1 h2
    exact ⟨⟨hv, fun c hc => List.mem_takeWhile_imp hc⟩, rfl, rfl⟩
  · cases h

theorem pValue_sound : ∀ (n d : Nat) (bs : Bytes) (v : JV) (r : Bytes),
    d ≤ maxNestingDepth → pValue n d bs = some (v, r) →
    JV.WF v ∧ d + JV.height v ≤ maxNestingDepth := by
  intro n
  induction n with
  | zero => intro d bs v r _ h; simp [pValue] at h
  | succ n ih =>
    intro d bs v r hd h
    cases bs with
    | nil => simp [pValue] at h
    | cons c r0 =>
      unfold pValue at h
      split at h
      · cases hp : pStr r0 with
        | none => simp [hp] at h
        | some p =>
          obtain ⟨b, rb⟩ := p
          simp only [hp, Option.map_some', Option.some.injEq, Prod.mk.injEq] at h
          obtain ⟨h1, h2⟩ := h
          subst h1 h2
          exact ⟨by simpa [JV.WF] using (body_of_pStr _ _ _ _ (Nat.le_refl _) hp).1,
            by simpa [JV.height] using hd⟩
      · split at h
        · split at h
          · cases h
          · next hdep =>
            split at h
            · cases h
            · next c1 r1 hs =>
              split at h
              · cases h
                exact ⟨by simp [JV.WF, JV.WFList], by simp [JV.height, JV.heightList]; omega⟩
              · cases hp : pElems (pValue n (d + 1)) r0.length (c1 :: r1) with
                | none => simp [hp] at h
                | some p =>
                  obtain ⟨vs, rr⟩ := p
                  simp only [hp, Option.map_some', Option.some.injEq, Prod.mk.injEq] at h
                  obtain ⟨h1, h2⟩ := h
                  subst h1 h2
                  have hall := pElems_sound
                    (fun v => JV.WF v ∧ d + 1 + JV.height v ≤ maxNestingDepth) _
                    (fun bs v r hv => ih (d + 1) bs v r (by omega) hv) _ _ _ _ hp
                  refine ⟨?_, ?_⟩
                  · simp only [JV.WF]
                    exact (wfList_iff vs).2 (fun v hv => (hall v hv).1)
                  · simp only [JV.height]
                    have : JV.heightList vs ≤ maxNestingDepth - (d + 1) :=
                      (heightList_le vs _).2 (fun v hv => by have := (hall v hv).2; omega)
                    omega
        · split at h
          · split at h
            · cases h
            · next hdep =>
              split at h
              · cases h
              · next c1 r1 hs =>
                split at h
                · cases h
                  exact ⟨by simp [JV.WF, JV.WFMembers],
                    by simp [JV.height, JV.heightMembers]; omega⟩
                · cases hp : pMembers (pValue n (d + 1)) r0.length (c1 :: r1) with
                  | none => simp [hp] at h
                  | some p =>
                    obtain ⟨ms, rr⟩ := p
                    simp only [hp, Option.map_some', Option.some.injEq, Prod.mk.injEq] at h
                    obtain ⟨h1, h2⟩ := h
                    subst h1 h2
                    have hall := pMembers_sound
                      (fun v => JV.WF v ∧ d + 1 + JV.height v ≤ maxNestingDepth) _
                      (fun bs v r hv => ih (d + 1) bs v r (by omega) hv) _ _ _ _ hp
                    refine ⟨?_, ?_⟩
                    · simp only [JV.WF]
                      refine (wfMembers_iff _).2 (fun q hq => ?_)
                      obtain ⟨m, hm, rfl⟩ := List.mem_map.1 hq
                      exact ⟨(hall m hm).1, (hall m hm).2.1⟩
                    · simp only [JV.height]
                      have : JV.heightMembers (ms.map (fun m => (m.1, m.2.1)))
                          ≤ maxNestingDepth - (d + 1) :=
                        (heightMembers_le _ _).2 (fun q hq => by
                          obtain ⟨m, hm, rfl⟩ := List.mem_map.1 hq
                          have := (hall m hm).2.2
                          simp only
                          omega)
                      omega
          · cases hp : pLit (c :: r0) with
            | none => simp [hp] at h
            | some p =>
              obtain ⟨t, rt⟩ := p
              simp only [hp, Option.map_some', Option.some.injEq, Prod.mk.injEq] at h
              obtain ⟨h1, h2⟩ := h
              subst h1 h2
              exact ⟨by simpa [JV.WF] using (pLit_sound _ _ _ hp).1,
                by simpa [JV.height] using hd⟩

theorem parse_sound (bs : Bytes) (v : JV) (h : parse bs = some v) :
    JV.WF v ∧ JV.height v ≤ maxNestingDepth := by
  unfold parse at h
  split at h
  · next v1 r hv =>
    split at h
    · cases h
      have := pValue_sound _ 0 _ _ _ (Nat.zero_le _) hv
      simpa using this
    · cases h
  · cases h

mutual
theorem wf_mapStr : ∀ v : JV, JV.WF v → JV.WF (v.mapStr escHTML)
  | .lit t, h => by simpa [JV.mapStr, JV.WF] using h
  | .str b, h => by
    simp only [JV.mapStr, JV.WF] at h ⊢
    exact strBody_escHTML _ _ (Nat.le_refl _) h
  | .arr items, h => by
    simp only [JV.mapStr, JV.WF] at h ⊢
    exact wfList_mapStr items h
  | .obj ms, h => by
    simp only [JV.mapStr, JV.WF] at h ⊢
    exact wfMembers_mapStr ms h
theorem wfList_mapStr : ∀ vs : List JV, JV.WFList vs → JV.WFList (JV.mapStrList escHTML vs)
  | [], _ => by simp [JV.mapStrList, JV.WFList]
  | v :: vs, h => by
    simp only [JV.mapStrList, JV.WFList] at h ⊢
    exact ⟨wf_mapStr v h.1, wfList_mapStr vs h.2⟩
theorem wfMembers_mapStr : ∀ ms : List (Bytes × JV),
    JV.WFMembers ms → JV.WFMembers (JV.mapStrMembers escHTML ms)
  | [], _ => by simp [JV.mapStrMembers, JV.WFMembers]
  | (k, v) :: ms, h => by
    simp only [JV.mapStrMembers, JV.WFMembers] at h ⊢
    exact ⟨strBody_escHTML _ _ (Nat.le_refl _) h.1, wf_mapStr v h.2.1, wfMembers_mapStr ms h.2.2⟩
end

mutual
theorem height_mapStr (f : Bytes → Bytes) : ∀ v : JV, (v.mapStr f).height = v.height
  | .lit t => by simp [JV.mapStr, JV.height]
  | .str b => by simp [JV.mapStr, JV.height]
  | .arr items => by simp [JV.mapStr, JV.height, heightList_mapStr f items]
  | .obj ms => by simp [JV.mapStr, JV.height, heightMembers_mapStr f ms]
theorem heightList_mapStr (f : Bytes → Bytes) :
    ∀ vs : List JV, JV.heightList (JV.mapStrList f vs) = JV.heightList vs
  | [] => by simp [JV.mapStrList, JV.heightList]
  | v :: vs => by
    simp [JV.mapStrList, JV.heightList, height_mapStr f v, heightList_mapStr f vs]
theorem heightMembers_mapStr (f : Bytes → Bytes) :
    ∀ ms : List (Bytes × JV), JV.heightMembers (JV.mapStrMembers f ms) = JV.heightMembers ms
  | [] => by simp [JV.mapStrMembers, JV.heightMembers]
  | (k, v) :: ms => by
    simp [JV.mapStrMembers, JV.heightMembers, height_mapStr f v, heightMembers_mapStr f ms]
end

theorem validLit_ne_nil (t : Bytes) (h : validLit t = true) : t ≠ [] := by
  intro ht; subst ht; simp [validLit, validNumber, intPart, ascii] at h

/-- A well-formed value is written with a first byte that is not white space. -/
theorem indent_head (d : Nat) (v : JV) (h : JV.WF v) :
    ∃ c r, JV.indent d v = c :: r ∧ isSpace c = false := by
  cases v with
  | lit t =>
    simp only [JV.WF] at h
    cases t with
    | nil => exact absurd rfl (validLit_ne_nil _ h.1)
    | cons c r =>
      refine ⟨c, r, by simp [JV.indent], ?_⟩
      have := h.2 c (List.mem_cons_self _ _)
      simp only [isLitChar, isDigit, Bool.or_eq_true, Bool.and_eq_true, decide_eq_true_eq] at this
      simp only [isSpace, Bool.or_eq_false_iff, decide_eq_false_iff_not]
      omega
  | str b => exact ⟨0x22, b ++ [0x22], by simp [JV.indent], by decide⟩
  | arr items =>
    cases items with
    | nil => exact ⟨0x5B, [0x5D], by simp [JV.indent], by decide⟩
    | cons v vs => exact ⟨0x5B, _, by simp only [JV.indent, List.cons_append]; rfl, by decide⟩
  | obj ms =>
    cases ms with
    | nil => exact ⟨0x7B, [0x7D], by simp [JV.indent], by decide⟩
    | cons p ps =>
      obtain ⟨k, v⟩ := p
      exact ⟨0x7B, _, by simp only [JV.indent, List.cons_append]; rfl, by decide⟩

/-! ## Scanning what `Indent` has written -/

theorem skipSpace_of_head (c : Nat) (r : Bytes) (h : isSpace c = false) :
    skipSpace (c :: r) = c :: r := by
  simp [skipSpace, List.dropWhile, h]

theorem skipSpace_spaces (n : Nat) (x : Bytes) :
    skipSpace (List.replicate n 0x20 ++ x) = skipSpace x := by
  induction n with
  | zero => simp
  | succ n ih =>
    have h : isSpace 0x20 = true := by decide
    rw [List.replicate_succ, List.cons_append]
    unfold skipSpace at ih ⊢
    rw [List.dropWhile_cons_of_pos h]
    exact ih

theorem skipSpace_newline (d : Nat) (x : Bytes) : skipSpace (newline d ++ x) = skipSpace x := by
  have h : isSpace 0x0A = true := by decide
  unfold newline
  rw [List.cons_append]
  have := skipSpace_spaces (2 * d) x
  unfold skipSpace at this ⊢
  rw [List.dropWhile_cons_of_pos h]
  exact this

theorem skipSpace_indent (d : Nat) (v : JV) (h : JV.WF v) (x : Bytes) :
    skipSpace (JV.indent d v ++ x) = JV.indent d v ++ x := by
  obtain ⟨c, r, hcr, hsp⟩ := indent_head d v h
  rw [hcr, List.cons_append]
  exact skipSpace_of_head c _ hsp

theorem restOK_cons (c : Nat) (r : Bytes) (h : isLitChar c = false) : RestOK (c :: r) := by
  intro c1 r1 he
  cases he
  exact h

theorem restOK_newline (d : Nat) (x : Bytes) : RestOK (newline d ++ x) := by
  unfold newline
  exact restOK_cons _ _ (by decide)

theorem pElems_indent (pv : Bytes → Option (JV × Bytes)) (d d0 : Nat) (rest : Bytes) :
    ∀ (vs : List JV) (v : JV) (k : Nat), vs.length < k →
      (∀ x ∈ v :: vs, JV.WF x ∧ ∀ r, RestOK r → pv (JV.indent d x ++ r) = some (x, r)) →
      pElems pv k (JV.indent d v ++ (JV.indentList d vs ++ (newline d0 ++ 0x5D :: rest)))
        = some (v :: vs, rest) := by
  intro vs
  induction vs with
  | nil =>
    intro v k hk hall
    obtain ⟨k, rfl⟩ : ∃ k1, k = k1 + 1 := ⟨k - 1, by omega⟩
    have hv := (hall v (List.mem_cons_self _ _)).2 (newline d0 ++ 0x5D :: rest)
      (restOK_newline _ _)
    unfold pElems
    simp only [JV.indentList, List.nil_append, hv, skipSpace_newline,
      skipSpace_of_head 0x5D rest (by decide)]
    simp
  | cons v2 vs ih =>
    intro v k hk hall
    obtain ⟨k, rfl⟩ : ∃ k1, k = k1 + 1 := ⟨k - 1, by omega⟩
    have hwf2 := (hall v2 (by simp)).1
    have hv := (hall v (List.mem_cons_self _ _)).2
      (0x2C :: (newline d ++ (JV.indent d v2 ++ (JV.indentList d vs
        ++ (newline d0 ++ 0x5D :: rest)))))
      (restOK_cons _ _ (by decide))
    have ih1 := ih v2 k (by simp at hk; omega)
      (fun x hx => hall x (List.mem_cons_of_mem _ hx))
    unfold pElems
    simp only [JV.indentList, List.cons_append, List.append_assoc, hv,
      skipSpace_of_head 0x2C _ (by decide), skipSpace_newline, skipSpace_indent d v2 hwf2, ih1]
    simp

theorem skipSpace_space (x : Bytes) : skipSpace (0x20 :: x) = skipSpace x :=
  skipSpace_spaces 1 x

theorem take_written (a r : Bytes) : (a ++ r).take ((a ++ r).length - r.length) = a := by
  rw [List.length_append, Nat.add_sub_cancel]
  exact List.take_left' rfl

theorem pMembers_indent (pv : Bytes → Option (JV × Bytes)) (d d0 : Nat) (rest : Bytes) :
    ∀ (ms : List (Bytes × JV)) (k : Bytes) (v : JV) (n : Nat), ms.length < n →
      (∀ p ∈ (k, v) :: ms, StrBody p.1 ∧ JV.WF p.2 ∧
        ∀ r, RestOK r → pv (JV.indent d p.2 ++ r) = some (p.2, r)) →
      pMembers pv n (0x22 :: (k ++ 0x22 :: 0x3A :: 0x20 :: (JV.indent d v
          ++ (JV.indentMembers d ms ++ (newline d0 ++ 0x7D :: rest)))))
        = some (((k, v) :: ms).map (fun p => (p.1, p.2, JV.indent d p.2)), rest) := by
  intro ms
  induction ms with
  | nil =>
    intro k v n hn hall
    obtain ⟨n, rfl⟩ : ∃ n1, n = n1 + 1 := ⟨n - 1, by omega⟩
    obtain ⟨hk, hwf, hv⟩ := hall (k, v) (List.mem_cons_self _ _)
    have hv1 := hv (newline d0 ++ 0x7D :: rest) (restOK_newline _ _)
    unfold pMembers
    simp only [JV.indentMembers, List.nil_append, pStr_of_body hk,
      skipSpace_of_head 0x3A _ (by decide), skipSpace_space, skipSpace_indent d v hwf, hv1,
      skipSpace_newline, skipSpace_of_head 0x7D rest (by decide), take_written]
    simp
  | cons p ms ih =>
    intro k v n hn hall
    obtain ⟨k2, v2⟩ := p
    obtain ⟨n, rfl⟩ : ∃ n1, n = n1 + 1 := ⟨n - 1, by omega⟩
    obtain ⟨hk, hwf, hv⟩ := hall (k, v) (List.mem_cons_self _ _)
    have hwf2 := (hall (k2, v2) (by simp)).2.1
    have hv1 := hv (0x2C :: (newline d ++ (0x22 :: (k2 ++ 0x22 :: 0x3A :: 0x20 ::
      (JV.indent d v2 ++ (JV.indentMembers d ms ++ (newline d0 ++ 0x7D :: rest)))))))
      (restOK_cons _ _ (by decide))
    have ih1 := ih k2 v2 n (by simp at hn; omega)
      (fun x hx => hall x (List.mem_cons_of_mem _ hx))
    unfold pMembers
    simp only [JV.indentMembers, List.cons_append, List.append_assoc, List.nil_append,
      pStr_of_body hk,
      skipSpace_of_head 0x3A _ (by decide), skipSpace_space, skipSpace_indent d v hwf, hv1,
      skipSpace_of_head 0x2C _ (by decide), skipSpace_newline,
      skipSpace_of_head 0x22 _ (by decide), take_written, ih1]
    simp

theorem indent_head_ne (d : Nat) (v : JV) (h : JV.WF v) :
    ∃ c r, JV.indent d v = c :: r ∧ c ≠ 0x5D := by
  cases v with
  | lit t =>
    simp only [JV.WF] at h
    cases t with
    | nil => exact absurd rfl (validLit_ne_nil _ h.1)
    | cons c r =>
      refine ⟨c, r, by simp [JV.indent], ?_⟩
      have := h.2 c (List.mem_cons_self _ _)
      simp only [isLitChar, isDigit, Bool.or_eq_true, Bool.and_eq_true, decide_eq_true_eq] at this
      omega
  | str b => exact ⟨0x22, b ++ [0x22], by simp [JV.indent], by decide⟩
  | arr items =>
    cases items with
    | nil => exact ⟨0x5B, [0x5D], by simp [JV.indent], by decide⟩
    | cons v vs => exact ⟨0x5B, _, by simp only [JV.indent, List.cons_append]; rfl, by decide⟩
  | obj ms =>
    cases ms with
    | nil => exact ⟨0x7B, [0x7D], by simp [JV.indent], by decide⟩
    | cons p ps =>
      obtain ⟨k, v⟩ := p
      exact ⟨0x7B, _, by simp only [JV.indent, List.cons_append]; rfl, by decide⟩

theorem indentList_length (d : Nat) (vs : List JV) : vs.length ≤ (JV.indentList d vs).length := by
  induction vs with
  | nil => simp
  | cons v vs ih => simp only [JV.indentList, List.length_cons, List.cons_append,
      List.length_append]; omega

theorem indentMembers_length (d : Nat) (ms : List (Bytes × JV)) :
    ms.length ≤ (JV.indentMembers d ms).length := by
  induction ms with
  | nil => simp
  | cons p ms ih =>
    obtain ⟨k, v⟩ := p
    simp only [JV.indentMembers, List.length_cons, List.cons_append, List.length_append]; omega

theorem takeWhile_lit (t rest : Bytes) (ht : ∀ c ∈ t, isLitChar c = true) (hr : RestOK rest) :
    (t ++ rest).takeWhile isLitChar = t ∧ (t ++ rest).dropWhile isLitChar = rest := by
  induction t with
  | nil =>
    cases rest with
    | nil => simp
    | cons c r =>
      have := hr c r rfl
      simp [List.takeWhile, List.dropWhile, this]
  | cons c t ih =>
    have hc := ht c (List.mem_cons_self _ _)
    have := ih (fun x hx => ht x (List.mem_cons_of_mem _ hx))
    simp [List.takeWhile, List.dropWhile, hc, this.1, this.2]

theorem pLit_written (t rest : Bytes) (hv : validLit t = true)
    (ht : ∀ c ∈ t, isLitChar c = true) (hr : RestOK rest) :
    pLit (t ++ rest) = some (t, rest) := by
  have := takeWhile_lit t rest ht hr
  unfold pLit
  simp [this.1, this.2, hv]

theorem pValue_indent : ∀ (n d i : Nat) (v : JV) (rest : Bytes),
    JV.height v < n → JV.WF v → d + JV.height v ≤ maxNestingDepth → RestOK rest →
    pValue n d (JV.indent i v ++ rest) = some (v, rest) := by
  intro n
  induction n with
  | zero => intro d i v rest h; omega
  | succ n ih =>
    intro d i v rest hh hwf hdep hrest
    cases v with
    | lit t =>
      simp only [JV.WF] at hwf
      cases t with
      | nil => exact absurd rfl (validLit_ne_nil _ hwf.1)
      | cons c r =>
        have hc := hwf.2 c (List.mem_cons_self _ _)
        simp only [isLitChar, isDigit, Bool.or_eq_true, Bool.and_eq_true,
          decide_eq_true_eq] at hc
        have h1 : c ≠ 0x22 := by omega
        have h2 : c ≠ 0x5B := by omega
        have h3 : c ≠ 0x7B := by omega
        have hp := pLit_written (c :: r) rest hwf.1 hwf.2 hrest
        simp only [JV.indent, List.cons_append] at hp ⊢
        unfold pValue
        simp [h1, h2, h3, hp]
    | str b =>
      simp only [JV.WF] at hwf
      simp only [JV.indent, List.cons_append, List.append_assoc, List.nil_append]
      unfold pValue
      simp [pStr_of_body hwf]
    | arr items =>
      simp only [JV.WF] at hwf
      simp only [JV.height] at hh hdep
      have hd1 : ¬ (d + 1 > maxNestingDepth) := by omega
      cases items with
      | nil =>
        simp only [JV.indent, List.cons_append, List.nil_append]
        unfold pValue
        simp [hd1, skipSpace_of_head 0x5D rest (by decide)]
      | cons v vs =>
        have hall : ∀ x ∈ v :: vs, JV.WF x ∧
            ∀ r, RestOK r → pValue n (d + 1) (JV.indent (i + 1) x ++ r) = some (x, r) := by
          intro x hx
          have hwx := (wfList_iff _).1 hwf x hx
          have hhx := (heightList_le (v :: vs) (JV.heightList (v :: vs))).1 (Nat.le_refl _) x hx
          exact ⟨hwx, fun r hr => ih (d + 1) (i + 1) x r (by omega) hwx (by omega) hr⟩
        have hlen := indentList_length (i + 1) vs
        have hE := pElems_indent (pValue n (d + 1)) (i + 1) i rest vs v
          ((newline (i + 1) ++ (JV.indent (i + 1) v ++ (JV.indentList (i + 1) vs
            ++ (newline i ++ 0x5D :: rest)))).length)
          (by simp only [List.length_append, newline, List.length_cons]; omega) hall
        obtain ⟨c, r, hcr, hne⟩ := indent_head_ne (i + 1) v (hall v (List.mem_cons_self _ _)).1
        have hsk := skipSpace_indent (i + 1) v (hall v (List.mem_cons_self _ _)).1
          (JV.indentList (i + 1) vs ++ (newline i ++ 0x5D :: rest))
        rw [hcr] at hE hsk
        simp only [List.cons_append] at hE hsk
        simp only [JV.indent, List.cons_append, List.append_assoc, List.nil_append, hcr]
        unfold pValue
        simp only [skipSpace_newline, hsk, hE]
        simp [hd1, hne]
    | obj ms =>
      simp only [JV.WF] at hwf
      simp only [JV.height] at hh hdep
      have hd1 : ¬ (d + 1 > maxNestingDepth) := by omega
      cases ms with
      | nil =>
        simp only [JV.indent, List.cons_append, List.nil_append]
        unfold pValue
        simp [hd1, skipSpace_of_head 0x7D rest (by decide)]
      | cons p ps =>
        obtain ⟨k, v⟩ := p
        have hall : ∀ x ∈ (k, v) :: ps, StrBody x.1 ∧ JV.WF x.2 ∧
            ∀ r, RestOK r → pValue n (d + 1) (JV.indent (i + 1) x.2 ++ r) = some (x.2, r) := by
          intro x hx
          have hwx := (wfMembers_iff _).1 hwf x hx
          have hhx := (heightMembers_le ((k, v) :: ps) (JV.heightMembers ((k, v) :: ps))).1
            (Nat.le_refl _) x hx
          exact ⟨hwx.1, hwx.2, fun r hr => ih (d + 1) (i + 1) x.2 r (by omega) hwx.2 (by omega) hr⟩
        have hlen := indentMembers_length (i + 1) ps
        have hE := pMembers_indent (pValue n (d + 1)) (i + 1) i rest ps k v
          ((newline (i + 1) ++ (0x22 :: (k ++ 0x22 :: 0x3A :: 0x20 :: (JV.indent (i + 1) v
            ++ (JV.indentMembers (i + 1) ps ++ (newline i ++ 0x7D :: rest)))))).length)
          (by simp only [List.length_append, newline, List.length_cons]; omega) hall
        simp only [JV.indent, List.cons_append, List.append_assoc, List.nil_append]
        unfold pValue
        simp only [skipSpace_newline, skipSpace_of_head 0x22 _ (by decide), hE]
        simp [hd1, Function.comp_def]

/-! ## Keys: quoting and unquoting -/

theorem decodeRune_two (c b1 : Nat) (t : Bytes) (h1 : 0xC2 ≤ c) (h2 : c ≤ 0xDF)
    (h3 : 0x80 ≤ b1) (h4 : b1 ≤ 0xBF) :
    decodeRune (c :: b1 :: t) = (c % 32 * 64 + b1 % 64, 2) := by
  have a : ¬ c < 0x80 := by omega
  simp [decodeRune, isCont, a, h1, h2, h3, h4]

theorem decodeRune_three (c b1 b2 : Nat) (t : Bytes) (h1 : 0xE0 ≤ c) (h2 : c ≤ 0xEF)
    (h3 : (if c = 0xE0 then 0xA0 else 0x80) ≤ b1) (h4 : b1 ≤ (if c = 0xED then 0x9F else 0xBF))
    (h5 : 0x80 ≤ b2) (h6 : b2 ≤ 0xBF) :
    decodeRune (c :: b1 :: b2 :: t) = (c % 16 * 4096 + b1 % 64 * 64 + b2 % 64, 3) := by
  have a : ¬ c < 0x80 := by omega
  have b : ¬ (0xC2 ≤ c ∧ c ≤ 0xDF) := by omega
  simp [decodeRune, isCont, a, b, h1, h2, h3, h4, h5, h6]

theorem decodeRune_four (c b1 b2 b3 : Nat) (t : Bytes) (h1 : 0xF0 ≤ c) (h2 : c ≤ 0xF4)
    (h3 : (if c = 0xF0 then 0x90 else 0x80) ≤ b1) (h4 : b1 ≤ (if c = 0xF4 then 0x8F else 0xBF))
    (h5 : 0x80 ≤ b2) (h6 : b2 ≤ 0xBF) (h7 : 0x80 ≤ b3) (h8 : b3 ≤ 0xBF) :
    decodeRune (c :: b1 :: b2 :: b3 :: t)
      = (c % 8 * 262144 + b1 % 64 * 4096 + b2 % 64 * 64 + b3 % 64, 4) := by
  have a : ¬ c < 0x80 := by omega
  have b : ¬ (0xC2 ≤ c ∧ c ≤ 0xDF) := by omega
  have d : ¬ (0xE0 ≤ c ∧ c ≤ 0xEF) := by omega
  simp [decodeRune, isCont, a, b, d, h1, h2, h3, h4, h5, h6, h7, h8]

theorem decodeRune_cases (c : Nat) (r : Bytes) :
    c < 0x80 ∨ decodeRune (c :: r) = (0xFFFD, 1) ∨
    (∃ b1 r1, r = b1 :: r1 ∧ 0xC2 ≤ c ∧ c ≤ 0xDF ∧ 0x80 ≤ b1 ∧ b1 ≤ 0xBF) ∨
    (∃ b1 b2 r2, r = b1 :: b2 :: r2 ∧ 0xE0 ≤ c ∧ c ≤ 0xEF ∧
      (if c = 0xE0 then 0xA0 else 0x80) ≤ b1 ∧ b1 ≤ (if c = 0xED then 0x9F else 0xBF) ∧
      0x80 ≤ b2 ∧ b2 ≤ 0xBF) ∨
    (∃ b1 b2 b3 r3, r = b1 :: b2 :: b3 :: r3 ∧ 0xF0 ≤ c ∧ c ≤ 0xF4 ∧
      (if c = 0xF0 then 0x90 else 0x80) ≤ b1 ∧ b1 ≤ (if c = 0xF4 then 0x8F else 0xBF) ∧
      0x80 ≤ b2 ∧ b2 ≤ 0xBF ∧ 0x80 ≤ b3 ∧ b3 ≤ 0xBF) := by
  by_cases a : c < 0x80
  · exact Or.inl a
  right
  by_cases b : 0xC2 ≤ c ∧ c ≤ 0xDF
  · match r with
    | [] => left; simp [decodeRune, a, b]
    | b1 :: r1 =>
      by_cases hb : 0x80 ≤ b1 ∧ b1 ≤ 0xBF
      · right; left; exact ⟨b1, r1, rfl, b.1, b.2, hb.1, hb.2⟩
      · left; simp [decodeRune, isCont, a, b, hb]
  by_cases d : 0xE0 ≤ c ∧ c ≤ 0xEF
  · match r with
    | [] => left; simp [decodeRune, a, b, d]
    | [_] => left; simp [decodeRune, a, b, d]
    | b1 :: b2 :: r2 =>
      by_cases hb : ((if c = 0xE0 then 0xA0 else 0x80) ≤ b1 ∧
          b1 ≤ (if c = 0xED then 0x9F else 0xBF)) ∧ 0x80 ≤ b2 ∧ b2 ≤ 0xBF
      · right; right; left
        exact ⟨b1, b2, r2, rfl, d.1, d.2, hb.1.1, hb.1.2, hb.2.1, hb.2.2⟩
      · left; simp [decodeRune, isCont, a, b, d, hb]
  by_cases e : 0xF0 ≤ c ∧ c ≤ 0xF4
  · match r with
    | [] => left; simp [decodeRune, a, b, d, e]
    | [_] => left; simp [decodeRune, a, b, d, e]
    | [_, _] => left; simp [decodeRune, a, b, d, e]
    | b1 :: b2 :: b3 :: r3 =>
      by_cases hb : (((if c = 0xF0 then 0x90 else 0x80) ≤ b1 ∧
          b1 ≤ (if c = 0xF4 then 0x8F else 0xBF)) ∧ 0x80 ≤ b2 ∧ b2 ≤ 0xBF) ∧
          0x80 ≤ b3 ∧ b3 ≤ 0xBF
      · right; right; right
        exact ⟨b1, b2, b3, r3, rfl, e.1, e.2, hb.1.1.1, hb.1.1.2, hb.1.2.1, hb.1.2.2,
          hb.2.1, hb.2.2⟩
      · left; simp [decodeRune, isCont, a, b, d, e, hb]
  · left; simp [decodeRune, a, b, d, e]

theorem encodeRune_two (c b1 : Nat) (h1 : 0xC2 ≤ c) (h2 : c ≤ 0xDF)
    (h3 : 0x80 ≤ b1) (h4 : b1 ≤ 0xBF) : encodeRune (c % 32 * 64 + b1 % 64) = [c, b1] := by
  have e1 : ¬ (c % 32 * 64 + b1 % 64 < 0x80) := by omega
  have e2 : c % 32 * 64 + b1 % 64 < 0x800 := by omega
  have e3 : 0xC0 + (c % 32 * 64 + b1 % 64) / 64 = c := by omega
  have e4 : 0x80 + (c % 32 * 64 + b1 % 64) % 64 = b1 := by omega
  unfold encodeRune
  rw [if_neg e1, if_pos e2, e3, e4]

theorem encodeRune_three (c b1 b2 : Nat) (h1 : 0xE0 ≤ c) (h2 : c ≤ 0xEF)
    (h3 : (if c = 0xE0 then 0xA0 else 0x80) ≤ b1) (h4 : b1 ≤ (if c = 0xED then 0x9F else 0xBF))
    (h5 : 0x80 ≤ b2) (h6 : b2 ≤ 0xBF) :
    encodeRune (c % 16 * 4096 + b1 % 64 * 64 + b2 % 64) = [c, b1, b2] := by
  have l1 : 0x80 ≤ b1 := by split at h3 <;> omega
  have l2 : b1 ≤ 0xBF := by split at h4 <;> omega
  have l3 : c = 0xE0 → 0xA0 ≤ b1 := by intro he; simpa [he] using h3
  have l4 : c = 0xED → b1 ≤ 0x9F := by intro he; simpa [he] using h4
  have e1 : ¬ (c % 16 * 4096 + b1 % 64 * 64 + b2 % 64 < 0x80) := by omega
  have e2 : ¬ (c % 16 * 4096 + b1 % 64 * 64 + b2 % 64 < 0x800) := by omega
  have e3 : ¬ (((decide (0xD800 ≤ c % 16 * 4096 + b1 % 64 * 64 + b2 % 64) &&
      decide (c % 16 * 4096 + b1 % 64 * 64 + b2 % 64 < 0xE000)) ||
      decide (0x10FFFF < c % 16 * 4096 + b1 % 64 * 64 + b2 % 64)) = true) := by
    simp only [Bool.or_eq_true, Bool.and_eq_true, decide_eq_true_eq]; omega
  have e5 : c % 16 * 4096 + b1 % 64 * 64 + b2 % 64 < 0x10000 := by omega
  have e6 : 0xE0 + (c % 16 * 4096 + b1 % 64 * 64 + b2 % 64) / 4096 = c := by omega
  have e7 : 0x80 + (c % 16 * 4096 + b1 % 64 * 64 + b2 % 64) / 64 % 64 = b1 := by omega
  have e8 : 0x80 + (c % 16 * 4096 + b1 % 64 * 64 + b2 % 64) % 64 = b2 := by omega
  unfold encodeRune
  rw [if_neg e1, if_neg e2, if_neg e3, if_pos e5, e6, e7, e8]

theorem encodeRune_four (c b1 b2 b3 : Nat) (h1 : 0xF0 ≤ c) (h2 : c ≤ 0xF4)
    (h3 : (if c = 0xF0 then 0x90 else 0x80) ≤ b1) (h4 : b1 ≤ (if c = 0xF4 then 0x8F else 0xBF))
    (h5 : 0x80 ≤ b2) (h6 : b2 ≤ 0xBF) (h7 : 0x80 ≤ b3) (h8 : b3 ≤ 0xBF) :
    encodeRune (c % 8 * 262144 + b1 % 64 * 4096 + b2 % 64 * 64 + b3 % 64) = [c, b1, b2, b3] := by
  have l1 : 0x80 ≤ b1 := by split at h3 <;> omega
  have l2 : b1 ≤ 0xBF := by split at h4 <;> omega
  have l3 : c = 0xF0 → 0x90 ≤ b1 := by intro he; simpa [he] using h3
  have l4 : c = 0xF4 → b1 ≤ 0x8F := by intro he; simpa [he] using h4
  have e1 : ¬ (c % 8 * 262144 + b1 % 64 * 4096 + b2 % 64 * 64 + b3 % 64 < 0x80) := by omega
  have e2 : ¬ (c % 8 * 262144 + b1 % 64 * 4096 + b2 % 64 * 64 + b3 % 64 < 0x800) := by omega
  have e3 : ¬ (((decide (0xD800 ≤ c % 8 * 262144 + b1 % 64 * 4096 + b2 % 64 * 64 + b3 % 64) &&
      decide (c % 8 * 262144 + b1 % 64 * 4096 + b2 % 64 * 64 + b3 % 64 < 0xE000)) ||
      decide (0x10FFFF < c % 8 * 262144 + b1 % 64 * 4096 + b2 % 64 * 64 + b3 % 64)) = true) := by
    simp only [Bool.or_eq_true, Bool.and_eq_true, decide_eq_true_eq]; omega
  have e5 : ¬ (c % 8 * 262144 + b1 % 64 * 4096 + b2 % 64 * 64 + b3 % 64 < 0x10000) := by omega
  have e6 : 0xF0 + (c % 8 * 262144 + b1 % 64 * 4096 + b2 % 64 * 64 + b3 % 64) / 262144 = c := by
    omega
  have e7 : 0x80 + (c % 8 * 262144 + b1 % 64 * 4096 + b2 % 64 * 64 + b3 % 64) / 4096 % 64
      = b1 := by omega
  have e8 : 0x80 + (c % 8 * 262144 + b1 % 64 * 4096 + b2 % 64 * 64 + b3 % 64) / 64 % 64
      = b2 := by omega
  have e9 : 0x80 + (c % 8 * 262144 + b1 % 64 * 4096 + b2 % 64 * 64 + b3 % 64) % 64 = b3 := by
    omega
  unfold encodeRune
  rw [if_neg e1, if_neg e2, if_neg e3, if_neg e5, e6, e7, e8, e9]

/-- A valid encoding at the start of `c :: r`: the bytes `w` of the rune, which
`encodeRune` gives back and which decode alike whatever follows. -/
theorem decodeRune_valid (c : Nat) (r : Bytes) (hc : ¬ c < 0x80)
    (h : decodeRune (c :: r) ≠ (0xFFFD, 1)) :
    ∃ w rest, c :: r = w ++ rest ∧ (decodeRune (c :: r)).2 = w.length ∧
      encodeRune (decodeRune (c :: r)).1 = w ∧ (∀ x ∈ w, 0x80 ≤ x) ∧ 2 ≤ w.length ∧
      (∀ t, decodeRune (w ++ t) = decodeRune (c :: r)) := by
  rcases decodeRune_cases c r with h0 | h0 | h0 | h0 | h0
  · exact absurd h0 hc
  · exact absurd h0 h
  · obtain ⟨b1, r1, rfl, h1, h2, h3, h4⟩ := h0
    rw [decodeRune_two c b1 r1 h1 h2 h3 h4]
    refine ⟨[c, b1], r1, rfl, rfl, encodeRune_two c b1 h1 h2 h3 h4, ?_, by simp, ?_⟩
    · intro x hx
      simp only [List.mem_cons, List.mem_singleton, List.not_mem_nil, or_false] at hx
      rcases hx with hx | hx <;> omega
    · intro t; exact decodeRune_two c b1 t h1 h2 h3 h4
  · obtain ⟨b1, b2, r2, rfl, h1, h2, h3, h4, h5, h6⟩ := h0
    rw [decodeRune_three c b1 b2 r2 h1 h2 h3 h4 h5 h6]
    refine ⟨[c, b1, b2], r2, rfl, rfl, encodeRune_three c b1 b2 h1 h2 h3 h4 h5 h6, ?_, by simp, ?_⟩
    · intro x hx
      have l1 : 0x80 ≤ b1 := by split at h3 <;> omega
      simp only [List.mem_cons, List.mem_singleton, List.not_mem_nil, or_false] at hx
      rcases hx with hx | hx | hx <;> omega
    · intro t; exact decodeRune_three c b1 b2 t h1 h2 h3 h4 h5 h6
  · obtain ⟨b1, b2, b3, r3, rfl, h1, h2, h3, h4, h5, h6, h7, h8⟩ := h0
    rw [decodeRune_four c b1 b2 b3 r3 h1 h2 h3 h4 h5 h6 h7 h8]
    refine ⟨[c, b1, b2, b3], r3, rfl, rfl,
      encodeRune_four c b1 b2 b3 h1 h2 h3 h4 h5 h6 h7 h8, ?_, by simp, ?_⟩
    · intro x hx
      have l1 : 0x80 ≤ b1 := by split at h3 <;> omega
      simp only [List.mem_cons, List.mem_singleton, List.not_mem_nil, or_false] at hx
      rcases hx with hx | hx | hx | hx <;> omega
    · intro t; exact decodeRune_four c b1 b2 b3 t h1 h2 h3 h4 h5 h6 h7 h8

theorem hexDigit_spec (x : Nat) (hx : x < 16) :
    isHex (hexDigit x) = true ∧ hexVal (hexDigit x) = x := by
  interval_cases x <;> decide

theorem unquoteF_esc (m e : Nat) (rest : Bytes) (he : e ≠ 0x75) :
    unquoteF (m + 1) (0x5C :: e :: rest) = unescapeByte e :: unquoteF m rest := by
  simp [unquoteF, he]

theorem unquoteF_ascii (m c : Nat) (rest : Bytes) (h1 : c < 0x80) (h2 : c ≠ 0x5C) :
    unquoteF (m + 1) (c :: rest) = c :: unquoteF m rest := by
  simp [unquoteF, h1, h2]

theorem unquoteF_multi (m c : Nat) (rest : Bytes) (h1 : ¬ c < 0x80) :
    unquoteF (m + 1) (c :: rest) = encodeRune (decodeRune (c :: rest)).1
      ++ unquoteF m ((c :: rest).drop (decodeRune (c :: rest)).2) := by
  have h2 : c ≠ 0x5C := by omega
  simp [unquoteF, h1, h2]

theorem unquoteF_u (m h1 h2 h3 h4 : Nat) (rest : Bytes)
    (hh : (isHex h1 && isHex h2 && isHex h3 && isHex h4) = true)
    (hs : ¬ (0xD800 ≤ hexVal h1 * 4096 + hexVal h2 * 256 + hexVal h3 * 16 + hexVal h4 ∧
      hexVal h1 * 4096 + hexVal h2 * 256 + hexVal h3 * 16 + hexVal h4 < 0xE000)) :
    unquoteF (m + 1) (0x5C :: 0x75 :: h1 :: h2 :: h3 :: h4 :: rest)
      = encodeRune (hexVal h1 * 4096 + hexVal h2 * 256 + hexVal h3 * 16 + hexVal h4)
        ++ unquoteF m rest := by
  simp only [unquoteF, getu4, hh, if_true, List.drop]
  simp [hs]

theorem quoteByte_spec (c : Nat) (hc : c < 0x80) :
    (∀ m rest, unquoteF (m + 1) (quoteByte c ++ rest) = c :: unquoteF m rest) ∧
    (∀ b, StrBody b → StrBody (quoteByte c ++ b)) ∧ 1 ≤ (quoteByte c).length := by
  unfold quoteByte
  by_cases h1 : c = 0x22
  · subst h1
    exact ⟨fun m rest => unquoteF_esc m _ rest (by decide),
      fun b hb => StrBody.esc _ b (by decide) hb, by decide⟩
  by_cases h2 : c = 0x5C
  · subst h2
    exact ⟨fun m rest => unquoteF_esc m _ rest (by decide),
      fun b hb => StrBody.esc _ b (by decide) hb, by decide⟩
  by_cases h3 : c = 0x08
  · subst h3
    exact ⟨fun m rest => unquoteF_esc m _ rest (by decide),
      fun b hb => StrBody.esc _ b (by decide) hb, by decide⟩
  by_cases h4 : c = 0x0C
  · subst h4
    exact ⟨fun m rest => unquoteF_esc m _ rest (by decide),
      fun b hb => StrBody.esc _ b (by decide) hb, by decide⟩
  by_cases h5 : c = 0x0A
  · subst h5
    exact ⟨fun m rest => unquoteF_esc m _ rest (by decide),
      fun b hb => StrBody.esc _ b (by decide) hb, by decide⟩
  by_cases h6 : c = 0x0D
  · subst h6
    exact ⟨fun m rest => unquoteF_esc m _ rest (by decide),
      fun b hb => StrBody.esc _ b (by decide) hb, by decide⟩
  by_cases h7 : c = 0x09
  · subst h7
    exact ⟨fun m rest => unquoteF_esc m _ rest (by decide),
      fun b hb => StrBody.esc _ b (by decide) hb, by decide⟩
  simp only [h1, h2, h3, h4, h5, h6, h7, decide_False, Bool.or_self, Bool.false_eq_true,
    if_false]
  by_cases h8 : c < 0x20 ∨ c = 0x3C ∨ c = 0x3E ∨ c = 0x26
  · have h8' : (decide (c < 0x20) || decide (c = 0x3C) || decide (c = 0x3E) || decide (c = 0x26))
        = true := by
      simp only [Bool.or_eq_true, decide_eq_true_eq]; tauto
    rw [if_pos h8']
    obtain ⟨a1, a2⟩ := hexDigit_spec (c / 16) (by omega)
    obtain ⟨b1, b2⟩ := hexDigit_spec (c % 16) (by omega)
    have hh : (isHex 0x30 && isHex 0x30 && isHex (hexDigit (c / 16)) && isHex (hexDigit (c % 16)))
        = true := by
      rw [a1, b1]; decide
    have hv0 : hexVal 0x30 = 0 := by decide
    refine ⟨fun m rest => ?_, fun b hb => StrBody.uni _ _ _ _ b hh hb, by simp⟩
    have := unquoteF_u m 0x30 0x30 (hexDigit (c / 16)) (hexDigit (c % 16)) rest hh
      (by rw [hv0, a2, b2]; omega)
    rw [hv0, a2, b2] at this
    have e : 0 * 4096 + 0 * 256 + c / 16 * 16 + c % 16 = c := by omega
    rw [e] at this
    simp only [List.cons_append, List.nil_append]
    rw [this]
    have : encodeRune c = [c] := by simp [encodeRune, hc]
    rw [this]; rfl
  · have h8' : ¬ ((decide (c < 0x20) || decide (c = 0x3C) || decide (c = 0x3E) ||
        decide (c = 0x26)) = true) := by
      simp only [Bool.or_eq_true, decide_eq_true_eq]; tauto
    rw [if_neg h8']
    refine ⟨fun m rest => unquoteF_ascii m c rest hc h2, fun b hb => StrBody.plain c b ?_ hb,
      by simp⟩
    simp only [isPlain, Bool.and_eq_true, Bool.not_eq_true', decide_eq_false_iff_not]
    omega

theorem strBody_plain_append (w b : Bytes) (hw : ∀ x ∈ w, 0x80 ≤ x) (hb : StrBody b) :
    StrBody (w ++ b) := by
  induction w with
  | nil => exact hb
  | cons x w ih =>
    have hx := hw x (List.mem_cons_self _ _)
    refine StrBody.plain x _ ?_ (ih (fun y hy => hw y (List.mem_cons_of_mem _ hy)))
    simp only [isPlain, Bool.and_eq_true, Bool.not_eq_true', decide_eq_false_iff_not]
    omega

theorem invalid_iff (d : Nat × Nat) :
    ((decide (d.1 = 0xFFFD) && decide (d.2 = 1)) = true) ↔ d = (0xFFFD, 1) := by
  obtain ⟨a, b⟩ := d
  simp

theorem quoteF_multi (n c : Nat) (r : Bytes) (hc : ¬ c < 0x80) :
    quoteF (n + 1) (c :: r) =
      if decodeRune (c :: r) = (0xFFFD, 1) then [0x5C, 0x75, 0x66, 0x66, 0x66, 0x64] ++ quoteF n r
      else if (decodeRune (c :: r)).1 = 0x2028 then
        [0x5C, 0x75, 0x32, 0x30, 0x32, 0x38] ++ quoteF n ((c :: r).drop (decodeRune (c :: r)).2)
      else if (decodeRune (c :: r)).1 = 0x2029 then
        [0x5C, 0x75, 0x32, 0x30, 0x32, 0x39] ++ quoteF n ((c :: r).drop (decodeRune (c :: r)).2)
      else (c :: r).take (decodeRune (c :: r)).2
        ++ quoteF n ((c :: r).drop (decodeRune (c :: r)).2) := by
  have e1 : ascii "\\ufffd" = [0x5C, 0x75, 0x66, 0x66, 0x66, 0x64] := rfl
  have e2 : ascii "\\u2028" = [0x5C, 0x75, 0x32, 0x30, 0x32, 0x38] := rfl
  have e3 : ascii "\\u2029" = [0x5C, 0x75, 0x32, 0x30, 0x32, 0x39] := rfl
  rw [quoteF]
  simp only [hc, if_false, e1, e2, e3, invalid_iff]

theorem quoteF_body : ∀ (n : Nat) (s : Bytes), StrBody (quoteF n s) := by
  intro n
  induction n with
  | zero => intro s; simp [quoteF]; exact StrBody.nil
  | succ n ih =>
    intro s
    cases s with
    | nil => simp [quoteF]; exact StrBody.nil
    | cons c r =>
      by_cases hc : c < 0x80
      · rw [quoteF]
        simp only [hc, if_true]
        exact (quoteByte_spec c hc).2.1 _ (ih r)
      · rw [quoteF_multi n c r hc]
        split
        · exact StrBody.uni _ _ _ _ _ (by decide) (ih r)
        · next hv =>
          obtain ⟨w, rest, hs, hl, he, hw, -, -⟩ := decodeRune_valid c r hc hv
          split
          · exact StrBody.uni _ _ _ _ _ (by decide) (ih _)
          · split
            · exact StrBody.uni _ _ _ _ _ (by decide) (ih _)
            · rw [hl, hs, List.take_left' rfl]
              exact strBody_plain_append w _ hw (ih _)

theorem unquote_quoteF : ∀ (n : Nat) (s : Bytes) (m : Nat), validUTF8 n s = true →
    (quoteF n s).length ≤ m → unquoteF m (quoteF n s) = s := by
  intro n
  induction n with
  | zero =>
    intro s m hv _
    cases s with
    | nil => cases m <;> simp [quoteF, unquoteF]
    | cons c r => simp [validUTF8] at hv
  | succ n ih =>
    intro s m hv hm
    cases s with
    | nil => cases m <;> simp [quoteF, unquoteF]
    | cons c r =>
      rw [validUTF8] at hv
      simp only [invalid_iff] at hv
      by_cases hc : c < 0x80
      · have hd : decodeRune (c :: r) = (c, 1) := by simp [decodeRune, hc]
        have hne : (c, 1) ≠ ((0xFFFD : Nat), 1) := by
          intro h; simp only [Prod.mk.injEq] at h; omega
        rw [hd, if_neg hne] at hv
        simp only [List.drop_succ_cons, List.drop_zero] at hv
        rw [quoteF] at hm ⊢
        simp only [hc, if_true] at hm ⊢
        obtain ⟨hq1, -, hq3⟩ := quoteByte_spec c hc
        rw [List.length_append] at hm
        obtain ⟨m, rfl⟩ : ∃ m1, m = m1 + 1 := ⟨m - 1, by omega⟩
        rw [hq1, ih r m hv (by omega)]
      · rw [quoteF_multi n c r hc] at hm ⊢
        by_cases hinv : decodeRune (c :: r) = (0xFFFD, 1)
        · rw [if_pos hinv] at hv; cases hv
        · rw [if_neg hinv] at hv hm ⊢
          obtain ⟨w, rest, hs, hl, he, hw, hw2, hdec⟩ := decodeRune_valid c r hc hinv
          generalize hd : decodeRune (c :: r) = d at hv hm hl he hdec ⊢
          rw [hl, hs, List.drop_left' rfl] at hv hm ⊢
          rw [List.take_left' rfl] at hm ⊢
          by_cases h28 : d.1 = 0x2028
          · rw [if_pos h28] at hm ⊢
            rw [List.length_append] at hm
            simp only [List.length_cons, List.length_nil] at hm
            obtain ⟨m, rfl⟩ : ∃ m1, m = m1 + 1 := ⟨m - 1, by omega⟩
            have := unquoteF_u m 0x32 0x30 0x32 0x38 (quoteF n rest) (by decide) (by decide)
            simp only [List.cons_append, List.nil_append]
            rw [this, ih rest m hv (by omega)]
            have e : hexVal 0x32 * 4096 + hexVal 0x30 * 256 + hexVal 0x32 * 16 + hexVal 0x38
                = 0x2028 := by decide
            rw [e, ← h28, he]
          · rw [if_neg h28] at hm ⊢
            by_cases h29 : d.1 = 0x2029
            · rw [if_pos h29] at hm ⊢
              rw [List.length_append] at hm
              simp only [List.length_cons, List.length_nil] at hm
              obtain ⟨m, rfl⟩ : ∃ m1, m = m1 + 1 := ⟨m - 1, by omega⟩
              have := unquoteF_u m 0x32 0x30 0x32 0x39 (quoteF n rest) (by decide) (by decide)
              simp only [List.cons_append, List.nil_append]
              rw [this, ih rest m hv (by omega)]
              have e : hexVal 0x32 * 4096 + hexVal 0x30 * 256 + hexVal 0x32 * 16 + hexVal 0x39
                  = 0x2029 := by decide
              rw [e, ← h29, he]
            · rw [if_neg h29] at hm ⊢
              rw [List.length_append] at hm
              obtain ⟨m, rfl⟩ : ∃ m1, m = m1 + 1 := ⟨m - 1, by omega⟩
              match w, hs, hw2, hdec, he, hl, hm with
              | x :: w1, hs, hw2, hdec, he, hl, hm =>
                have hx : x = c := by
                  simp only [List.cons_append, List.cons.injEq] at hs; exact hs.1.symm
                subst hx
                rw [List.cons_append, unquoteF_multi m x _ hc, ← List.cons_append, hdec, he, hl,
                  List.drop_left' rfl, ih rest m hv (by simp only [List.length_cons] at hm; omega)]

/-! ## What `load` reads from what `persist` has written -/

theorem unquote_quote (k : Bytes) (h : validUTF8 k.length k = true) : unquote (quote k) = k :=
  unquote_quoteF k.length k _ h (Nat.le_refl _)

theorem foldl_insert_lookup {α : Type} (key val : α → Bytes) :
    ∀ (l : List α) (acc : RawMap), (l.map key).Nodup →
      (∀ x ∈ l, (l.foldl (fun a y => a.insert (key y) (val y)) acc).lookup (key x)
        = some (val x)) ∧
      (∀ k, k ∉ l.map key →
        (l.foldl (fun a y => a.insert (key y) (val y)) acc).lookup k = acc.lookup k) := by
  intro l
  induction l with
  | nil => intro acc _; simp
  | cons x l ih =>
    intro acc hnd
    rw [List.map_cons, List.nodup_cons] at hnd
    obtain ⟨ih1, ih2⟩ := ih (acc.insert (key x) (val x)) hnd.2
    constructor
    · intro y hy
      rcases List.mem_cons.1 hy with h | h
      · subst h
        rw [List.foldl_cons, ih2 _ hnd.1]
        exact AList.lookup_insert acc
      · exact ih1 y h
    · intro k hk
      rw [List.map_cons, List.mem_cons, not_or] at hk
      rw [List.foldl_cons, ih2 k hk.2]
      exact AList.lookup_insert_ne hk.1

theorem membersOf_eq : ∀ (es : List (Sigma fun _ : Bytes => Bytes)) (ms : List (Bytes × JV)),
    membersOf es = some ms →
    ms = es.map memberFor ∧ ∀ e ∈ es, ∃ v, parse e.2 = some v := by
  intro es
  induction es with
  | nil => intro ms h; simp [membersOf] at h; simp [h]
  | cons e es ih =>
    intro ms h
    unfold membersOf at h
    split at h
    · next v ms1 hv hms =>
      cases h
      obtain ⟨h1, h2⟩ := ih ms1 hms
      refine ⟨?_, ?_⟩
      · simp [memberFor, hv, h1]
      · intro e1 he1
        rcases List.mem_cons.1 he1 with hh | hh
        · subst hh; exact ⟨v, hv⟩
        · exact h2 e1 hh
    · cases h

theorem memberFor_wf (e : Sigma fun _ : Bytes => Bytes) (v : JV) (h : parse e.2 = some v) :
    StrBody (memberFor e).1 ∧ JV.WF (memberFor e).2 ∧
      (memberFor e).2 = v.mapStr escHTML ∧ JV.height (memberFor e).2 = JV.height v := by
  simp only [memberFor, h, Option.getD_some, height_mapStr, and_true, true_and]
  exact ⟨quoteF_body _ _, wf_mapStr v (parse_sound _ _ h).1⟩

theorem restOK_nil : RestOK [] := by
  intro c r h; cases h

theorem parse_indent_obj (ms : List (Bytes × JV)) (hwf : JV.WFMembers ms)
    (hh : JV.height (JV.obj ms) ≤ maxNestingDepth) :
    parse (JV.indent 0 (JV.obj ms)) = some (JV.obj ms) := by
  have hw : JV.WF (JV.obj ms) := by simpa [JV.WF] using hwf
  have h1 := pValue_indent (maxNestingDepth + 1) 0 0 (JV.obj ms) [] (by omega) hw (by omega)
    restOK_nil
  have h2 := skipSpace_indent 0 (JV.obj ms) hw []
  rw [List.append_nil] at h1 h2
  unfold parse
  rw [h2, h1]
  simp [skipSpace]

theorem topMembers_indent_obj (ms : List (Bytes × JV)) (hwf : JV.WFMembers ms)
    (hh : JV.height (JV.obj ms) ≤ maxNestingDepth) :
    topMembers (JV.indent 0 (JV.obj ms))
      = some (ms.map (fun p => (p.1, p.2, JV.indent 1 p.2))) := by
  cases ms with
  | nil => rfl
  | cons p ps =>
    obtain ⟨k, v⟩ := p
    simp only [JV.height] at hh
    have hall : ∀ x ∈ (k, v) :: ps, StrBody x.1 ∧ JV.WF x.2 ∧
        ∀ r, RestOK r → pValue maxNestingDepth 1 (JV.indent 1 x.2 ++ r) = some (x.2, r) := by
      intro x hx
      have hwx := (wfMembers_iff _).1 hwf x hx
      have hhx := (heightMembers_le ((k, v) :: ps) (JV.heightMembers ((k, v) :: ps))).1
        (Nat.le_refl _) x hx
      exact ⟨hwx.1, hwx.2, fun r hr =>
        pValue_indent maxNestingDepth 1 1 x.2 r (by omega) hwx.2 (by omega) hr⟩
    have hlen := indentMembers_length 1 ps
    have hE := pMembers_indent (pValue maxNestingDepth 1) 1 0 [] ps k v
      ((newline 1 ++ (0x22 :: (k ++ 0x22 :: 0x3A :: 0x20 :: (JV.indent 1 v
        ++ (JV.indentMembers 1 ps ++ (newline 0 ++ [0x7D])))))).length)
      (by simp only [List.length_append, newline, List.length_cons]; omega) hall
    simp only [JV.indent, List.cons_append, List.append_assoc, List.nil_append, Nat.zero_add]
    unfold topMembers
    simp only [skipSpace_of_head 0x7B _ (by decide), skipSpace_newline,
      skipSpace_of_head 0x22 _ (by decide), hE]
    simp

/-- What `json.Unmarshal` makes of the document that `json.MarshalIndent` wrote for a
map whose keys are valid UTF-8: a map with the same keys, each raw message being the
re-indented form of the original. -/
theorem unmarshal_marshalIndent (m : RawMap) (doc : Bytes)
    (hk : ∀ k ∈ m.keys, validUTF8 k.length k = true)
    (hdoc : marshalIndentMap (some m) = .ok doc) :
    ∃ m1, unmarshalMap doc (some ∅) = (some m1, none) ∧ doc ≠ [] ∧
      ∀ k, m1.lookup k = (m.lookup k).bind reindent := by
  have hunf : marshalIndentMap (some m) =
      match membersOf (m.entries.insertionSort (fun a b => bytesLE a.1 b.1 = true)) with
      | none => .error (Error.jsonError 1)
      | some ms =>
        if (JV.obj ms).height ≤ maxNestingDepth then .ok ((JV.obj ms).indent 0)
        else .error (Error.jsonError 1) := rfl
  rw [hunf] at hdoc
  generalize hes : m.entries.insertionSort (fun a b => bytesLE a.1 b.1 = true) = es at hdoc
  have hperm : es.Perm m.entries := by
    rw [← hes]; exact List.perm_insertionSort _ _
  split at hdoc
  · cases hdoc
  · next ms hmem =>
    split at hdoc
    · next hh =>
      injection hdoc with hdoc
      subst hdoc
      obtain ⟨hms, hparse⟩ := membersOf_eq es ms hmem
      have hwf : JV.WFMembers ms := by
        refine (wfMembers_iff _).2 (fun p hp => ?_)
        rw [hms] at hp
        obtain ⟨e, he, rfl⟩ := List.mem_map.1 hp
        obtain ⟨v, hv⟩ := hparse e he
        exact ⟨(memberFor_wf e v hv).1, (memberFor_wf e v hv).2.1⟩
      have hkeys : ∀ e ∈ es, unquote (memberFor e).1 = e.1 := by
        intro e he
        have : e.1 ∈ m.keys := by
          have := hperm.mem_iff.1 he
          exact List.mem_map.2 ⟨e, this, rfl⟩
        exact unquote_quote e.1 (hk _ this)
      have hmapkeys : es.map (fun e => unquote (memberFor e).1) = es.map Sigma.fst :=
        List.map_congr_left hkeys
      have hnd : (es.map (fun e => unquote (memberFor e).1)).Nodup := by
        rw [hmapkeys]
        exact (List.Perm.nodup_iff (hperm.map _)).2 m.keys_nodup
      obtain ⟨f1, f2⟩ := foldl_insert_lookup (fun e => unquote (memberFor e).1)
        (fun e => JV.indent 1 (memberFor e).2) es ∅ hnd
      refine ⟨es.foldl (fun a y => a.insert (unquote (memberFor y).1)
        (JV.indent 1 (memberFor y).2)) ∅, ?_, ?_, ?_⟩
      · unfold unmarshalMap
        rw [parse_indent_obj ms hwf hh]
        simp only [topMembers_indent_obj ms hwf hh]
        rw [hms]
        simp only [List.foldl_map, Option.getD_some]
      · obtain ⟨c, r, hcr, -⟩ := indent_head 0 (JV.obj ms) (by simpa [JV.WF] using hwf)
        rw [hcr]; exact List.cons_ne_nil _ _
      · intro k
        cases hl : m.lookup k with
        | some raw =>
          have he : (⟨k, raw⟩ : Sigma fun _ : Bytes => Bytes) ∈ es :=
            hperm.mem_iff.2 (AList.mem_lookup_iff.1 (by rw [hl]; rfl))
          have h1 := f1 _ he
          rw [hkeys _ he] at h1
          obtain ⟨v, hv⟩ := hparse _ he
          simp only at hv
          rw [h1]
          simp [reindent, memberFor, hv]
        | none =>
          have hnk : k ∉ es.map (fun e => unquote (memberFor e).1) := by
            rw [hmapkeys]
            intro hmemk
            have : k ∈ m.keys := (hperm.map Sigma.fst).mem_iff.1 hmemk
            exact (AList.lookup_eq_none.1 hl) (AList.mem_keys.2 this)
          rw [f2 k hnk]
          simp
    · cases hdoc

/-! ## Persistence -/

theorem persist_ok {T : Type} (lib : JsonLib T) (s : Store) (fs : FS) (env : Env)
    (h : (Store.persist lib s fs env).2 = none) :
    ∃ doc perm, lib.MarshalIndentMap s.data = .ok doc ∧
      (Store.persist lib s fs env).1 s.path = some ⟨doc, perm⟩ := by
  unfold Store.persist at h ⊢
  cases hm : lib.MarshalIndentMap s.data with
  | error e => simp [hm] at h
  | ok doc =>
    simp only [hm] at h ⊢
    cases hw : env.write with
    | fail e left => cases left <;> simp [writeFile, hw] at h
    | ok =>
      simp only [writeFile, hw] at h ⊢
      cases hr : env.rename with
      | some e => simp [rename, hr] at h
      | none =>
        simp only [rename, hr, FS.update, if_true] at h ⊢
        exact ⟨doc, (match fs (s.path ++ ascii ".tmp") with
          | some f => f.perm
          | none => applyUmask 420 env.umask), rfl, by simp⟩

theorem newStore_of_file {T : Type} (zero : T) (enc : T → Except Error Bytes)
    (dec : Bytes → Except Error T) (path : Bytes) (fs : FS) (env : Env) (doc : Bytes)
    (perm : Nat) (m1 : RawMap) (hf : fs path = some ⟨doc, perm⟩) (hr : env.read = none)
    (hne : doc ≠ []) (hu : unmarshalMap doc (some ∅) = (some m1, none)) :
    Store.NewStore (goJsonFor zero enc dec) path fs env = (.ok ⟨path, some m1⟩, fs) := by
  have hl : ¬ doc.length = 0 := fun h => hne (List.length_eq_zero.1 h)
  simp [Store.NewStore, Store.load, readFile, hr, hf, hl, goJsonFor, hu]

theorem get_congr {T : Type} (lib : JsonLib T) (s1 s2 : Store) (k : Bytes)
    (h : s1.data.bind (fun m => m.lookup k) = s2.data.bind (fun m => m.lookup k)) :
    Store.Get lib s1 k = Store.Get lib s2 k := by
  simp [Store.Get, h]

theorem reindent_isSome_of_marshal (m : RawMap) (doc : Bytes)
    (hdoc : marshalIndentMap (some m) = .ok doc) (k raw : Bytes) (hl : m.lookup k = some raw) :
    ∃ raw1, reindent raw = some raw1 := by
  have hunf : marshalIndentMap (some m) =
      match membersOf (m.entries.insertionSort (fun a b => bytesLE a.1 b.1 = true)) with
      | none => .error (Error.jsonError 1)
      | some ms =>
        if (JV.obj ms).height ≤ maxNestingDepth then .ok ((JV.obj ms).indent 0)
        else .error (Error.jsonError 1) := rfl
  rw [hunf] at hdoc
  split at hdoc
  · cases hdoc
  · next ms hmem =>
    obtain ⟨-, hparse⟩ := membersOf_eq _ ms hmem
    have he : (⟨k, raw⟩ : Sigma fun _ : Bytes => Bytes) ∈
        m.entries.insertionSort (fun a b => bytesLE a.1 b.1 = true) :=
      (List.perm_insertionSort _ _).mem_iff.2 (AList.mem_lookup_iff.1 (by rw [hl]; rfl))
    obtain ⟨v, hv⟩ := hparse _ he
    simp only at hv
    exact ⟨JV.indent 1 (JV.mapStr escHTML v), by simp [reindent, hv]⟩

/-! ## Delete of an absent key -/

theorem erase_absent (m : RawMap) (k : Bytes) (h : m.lookup k = none) : m.erase k = m :=
  AList.ext (List.kerase_of_not_mem_keys
    (fun hk => (AList.lookup_eq_none.1 h) (AList.mem_keys.2 hk)))

/-- C4 (as amended). Delete of an absent key: `Delete(k)` on a store without entry for
`k` returns exactly what the persist step on the unchanged store returns, so no error
when the document is written and renamed; the store after the call is the store
before it, with the same `Keys` and the same `Get` on every key; and after a call
without error on a store whose keys are valid UTF-8 the backing file holds the
document of the map and decodes to a map with the same keys, in which each raw message
is the re-indented form of the one in memory. -/
theorem C4_delete_absent {T : Type} (zero : T) (enc : T → Except Error Bytes)
    (dec : Bytes → Except Error T) (s : Store) (k : Bytes) (fs : FS) (env : Env)
    (habs : s.has k = false) :
    (Store.Delete (goJsonFor zero enc dec) s k fs env).1 = s ∧
    (Store.Delete (goJsonFor zero enc dec) s k fs env).2
      = Store.persist (goJsonFor zero enc dec) s fs env ∧
    (∀ doc, marshalIndentMap s.data = .ok doc → env.write = .ok → env.rename = none →
      (Store.Delete (goJsonFor zero enc dec) s k fs env).2.2 = none) ∧
    Store.Keys (Store.Delete (goJsonFor zero enc dec) s k fs env).1 = Store.Keys s ∧
    (∀ k1, Store.Get (goJsonFor zero enc dec)
        (Store.Delete (goJsonFor zero enc dec) s k fs env).1 k1
      = Store.Get (goJsonFor zero enc dec) s k1) ∧
    ((Store.Delete (goJsonFor zero enc dec) s k fs env).2.2 = none →
      ∀ m, s.data = some m → (∀ k1 ∈ m.keys, validUTF8 k1.length k1 = true) →
      ∃ doc perm m1,
        (Store.Delete (goJsonFor zero enc dec) s k fs env).2.1 s.path = some ⟨doc, perm⟩ ∧
        marshalIndentMap (some m) = .ok doc ∧
        unmarshalMap doc (some ∅) = (some m1, none) ∧
        (∀ k1, k1 ∈ m1.keys ↔ k1 ∈ m.keys) ∧
        ∀ k1, m1.lookup k1 = (m.lookup k1).bind reindent) := by
  have hs : (Store.Delete (goJsonFor zero enc dec) s k fs env).1 = s := by
    obtain ⟨path, data⟩ := s
    simp only [Store.Delete]
    congr 1
    cases data with
    | none => rfl
    | some m =>
      simp only [Option.map_some', Option.some.injEq]
      exact erase_absent m k (by simpa [Store.has] using habs)
  have hp : (Store.Delete (goJsonFor zero enc dec) s k fs env).2
      = Store.persist (goJsonFor zero enc dec) s fs env := by
    have : (Store.Delete (goJsonFor zero enc dec) s k fs env).2
        = Store.persist (goJsonFor zero enc dec)
          (Store.Delete (goJsonFor zero enc dec) s k fs env).1 fs env := rfl
    rw [this, hs]
  refine ⟨hs, hp, ?_, by rw [hs], fun k1 => by rw [hs], ?_⟩
  · intro doc hdoc hw hr
    rw [hp]
    have hdoc1 : (goJsonFor zero enc dec).MarshalIndentMap s.data = .ok doc := hdoc
    simp [Store.persist, hdoc1, hw, hr, writeFile, rename, FS.update]
  · intro hnone m hm hutf
    rw [hp] at hnone ⊢
    obtain ⟨doc, perm, hdoc, hfile⟩ := persist_ok _ s fs env hnone
    have hdoc1 : marshalIndentMap (some m) = .ok doc := by rw [← hm]; exact hdoc
    obtain ⟨m1, hu, -, hlook⟩ := unmarshal_marshalIndent m doc hutf hdoc1
    refine ⟨doc, perm, m1, hfile, hdoc1, hu, ?_, hlook⟩
    intro k1
    simp only [← AList.mem_keys, ← AList.lookup_isSome, hlook k1]
    cases hl : m.lookup k1 with
    | none => simp
    | some raw =>
      obtain ⟨raw1, hr1⟩ := reindent_isSome_of_marshal m doc hdoc1 k1 raw hl
      simp [hr1]

theorem C4_delete_absent_witness :
    (Store.Delete (goJsonFor ⟨0, by decide⟩ marshalInt unmarshalInt) (freshStore (ascii "db"))
      (ascii "k") emptyFS Env.good).1 = freshStore (ascii "db") ∧
    (Store.Delete (goJsonFor ⟨0, by decide⟩ marshalInt unmarshalInt) (freshStore (ascii "db"))
      (ascii "k") emptyFS Env.good).2
      = Store.persist (goJsonFor ⟨0, by decide⟩ marshalInt unmarshalInt)
        (freshStore (ascii "db")) emptyFS Env.good ∧
    (∀ doc, marshalIndentMap (freshStore (ascii "db")).data = .ok doc →
      Env.good.write = .ok → Env.good.rename = none →
      (Store.Delete (goJsonFor ⟨0, by decide⟩ marshalInt unmarshalInt)
        (freshStore (ascii "db")) (ascii "k") emptyFS Env.good).2.2 = none) ∧
    Store.Keys (Store.Delete (goJsonFor ⟨0, by decide⟩ marshalInt unmarshalInt)
      (freshStore (ascii "db")) (ascii "k") emptyFS Env.good).1
      = Store.Keys (freshStore (ascii "db")) ∧
    (∀ k1, Store.Get (goJsonFor ⟨0, by decide⟩ marshalInt unmarshalInt)
        (Store.Delete (goJsonFor ⟨0, by decide⟩ marshalInt unmarshalInt)
          (freshStore (ascii "db")) (ascii "k") emptyFS Env.good).1 k1
      = Store.Get (goJsonFor ⟨0, by decide⟩ marshalInt unmarshalInt)
        (freshStore (ascii "db")) k1) ∧
    ((Store.Delete (goJsonFor ⟨0, by decide⟩ marshalInt unmarshalInt)
        (freshStore (ascii "db")) (ascii "k") emptyFS Env.good).2.2 = none →
      ∀ m, (freshStore (ascii "db")).data = some m →
      (∀ k1 ∈ m.keys, validUTF8 k1.length k1 = true) →
      ∃ doc perm m1,
        (Store.Delete (goJsonFor ⟨0, by decide⟩ marshalInt unmarshalInt)
          (freshStore (ascii "db")) (ascii "k") emptyFS Env.good).2.1
          (freshStore (ascii "db")).path = some ⟨doc, perm⟩ ∧
        marshalIndentMap (some m) = .ok doc ∧
        unmarshalMap doc (some ∅) = (some m1, none) ∧
        (∀ k1, k1 ∈ m1.keys ↔ k1 ∈ m.keys) ∧
        ∀ k1, m1.lookup k1 = (m.lookup k1).bind reindent) :=
  C4_delete_absent ⟨0, by decide⟩ marshalInt unmarshalInt (freshStore (ascii "db"))
    (ascii "k") emptyFS Env.good rfl

/-- C4 as stated fails in its last part. In a `Store[json.RawMessage]` that holds
`[1,2]` under `"a"`, `Delete("b")` succeeds and leaves the map as it is, but the
backing file decodes to a map that holds under `"a"` the indented text of the file,
not the bytes in memory. In a `Store[int]` with the key `"\xff"`, the backing file
after `Delete("b")` decodes to a map whose only key is `"\xef\xbf\xbd"`. -/
theorem C4_file_counterexample :
    (∃ r, Store.Set goJsonRaw (freshStore (ascii "db")) (ascii "a") (ascii "[1,2]") emptyFS
        Env.good = .ret r ∧ r.1.has (ascii "b") = false ∧
      (Store.Delete goJsonRaw r.1 (ascii "b") r.2.1 Env.good).2.2 = none ∧
      (Store.Delete goJsonRaw r.1 (ascii "b") r.2.1 Env.good).1.data.bind
        (fun m => m.lookup (ascii "a")) = some (ascii "[1,2]") ∧
      ∃ f m1, (Store.Delete goJsonRaw r.1 (ascii "b") r.2.1 Env.good).2.1 (ascii "db")
          = some f ∧
        unmarshalMap f.content (some ∅) = (some m1, none) ∧
        m1.lookup (ascii "a") = some (ascii "[\n    1,\n    2\n  ]")) ∧
    (∃ r, Store.Set goJson (freshStore (ascii "db")) [0xFF] ⟨1, by decide⟩ emptyFS
        Env.good = .ret r ∧ r.1.has (ascii "b") = false ∧
      (Store.Delete goJson r.1 (ascii "b") r.2.1 Env.good).2.2 = none ∧
      (Store.Keys (Store.Delete goJson r.1 (ascii "b") r.2.1 Env.good).1).1 = [[0xFF]] ∧
      ∃ f m1, (Store.Delete goJson r.1 (ascii "b") r.2.1 Env.good).2.1 (ascii "db")
          = some f ∧
        unmarshalMap f.content (some ∅) = (some m1, none) ∧
        m1.keys = [[0xEF, 0xBF, 0xBD]]) :=
  ⟨⟨_, rfl, rfl, rfl, rfl, _, _, rfl, rfl, rfl⟩, ⟨_, rfl, rfl, rfl, rfl, _, _, rfl, rfl, rfl⟩⟩

/-! ## HTML escaping keeps the value of a string -/

theorem unquoteF_nil (m : Nat) : unquoteF m [] = [] := by
  cases m <;> simp [unquoteF]

theorem escHTML_cont (x : Nat) (r : Bytes) (h1 : 0x80 ≤ x) (h2 : x ≤ 0xBF) :
    escHTML (x :: r) = x :: escHTML r := by
  have a1 : x ≠ 0x3C := by omega
  have a2 : x ≠ 0x3E := by omega
  have a3 : x ≠ 0x26 := by omega
  exact escHTML_plain x r (by simp [escByte, a1, a2, a3]) (by omega)

theorem escHTML_head_cont (r r1 : Bytes) (y : Nat) (h : escHTML r = y :: r1)
    (h1 : 0x80 ≤ y) (h2 : y ≤ 0xBF) : ∃ r0, r = y :: r0 ∧ r1 = escHTML r0 := by
  cases r with
  | nil => simp [escHTML] at h
  | cons x r0 =>
    cases he : escByte x with
    | some e =>
      rw [escHTML_special x e r0 he] at h
      unfold escByte at he
      split at he
      · cases he; simp [ascii] at h; omega
      · split at he
        · cases he; simp [ascii] at h; omega
        · split at he
          · cases he; simp [ascii] at h; omega
          · cases he
    | none =>
      by_cases hE : x = 0xE2
      · subst hE
        match r0, h with
        | [], h =>
          rw [escHTML_E2_short _ (by simp)] at h
          simp only [List.cons.injEq] at h; omega
        | [_], h =>
          rw [escHTML_E2_short _ (by simp)] at h
          simp only [List.cons.injEq] at h; omega
        | c1 :: c2 :: r2, h =>
          rw [escHTML_E2] at h
          split at h
          · simp [ascii] at h; omega
          · split at h
            · simp [ascii] at h; omega
            · simp only [List.cons.injEq] at h; omega
      · rw [escHTML_plain x r0 he hE] at h
        simp only [List.cons.injEq] at h
        exact ⟨r0, by rw [h.1], h.2.symm⟩

theorem if_lo_ge (p : Prop) [Decidable p] (a b1 : Nat) (h : (if p then a else 0x80) ≤ b1)
    (ha : 0x80 ≤ a) : 0x80 ≤ b1 := by
  split at h <;> omega

theorem if_hi_le (p : Prop) [Decidable p] (a b1 : Nat) (h : b1 ≤ (if p then a else 0xBF))
    (ha : a ≤ 0xBF) : b1 ≤ 0xBF := by
  split at h <;> omega

/-- A rune that `escHTML` copies: its bytes are copied as a whole and decode alike
before what `escHTML` makes of the rest. -/
theorem rune_escHTML (c : Nat) (r : Bytes) (hc : ¬ c < 0x80)
    (hcopy : escHTML (c :: r) = c :: escHTML r) (hb : StrBody (c :: r)) :
    ∃ w rest, c :: r = w ++ rest ∧ w.length = (decodeRune (c :: r)).2 ∧ 1 ≤ w.length ∧
      escHTML (c :: r) = w ++ escHTML rest ∧
      decodeRune (w ++ escHTML rest) = decodeRune (c :: r) ∧ StrBody rest := by
  have hc5 : c ≠ 0x5C := by omega
  have hr : StrBody r := hb.tail_of_plain hc5
  rcases decodeRune_cases c r with h0 | h0 | h0 | h0 | h0
  · exact absurd h0 hc
  · refine ⟨[c], r, rfl, by rw [h0]; rfl, by simp, hcopy, ?_, hr⟩
    rw [h0]
    rcases decodeRune_cases c (escHTML r) with h1 | h1 | h1 | h1 | h1
    · exact absurd h1 hc
    · exact h1
    · obtain ⟨b1, r1, he, a1, a2, a3, a4⟩ := h1
      obtain ⟨r0, hr0, -⟩ := escHTML_head_cont r r1 b1 he a3 a4
      rw [hr0, decodeRune_two c b1 r0 a1 a2 a3 a4] at h0
      simp at h0
    · obtain ⟨b1, b2, r2, he, a1, a2, a3, a4, a5, a6⟩ := h1
      obtain ⟨r0, hr0, hr0'⟩ := escHTML_head_cont r _ b1 he
        (if_lo_ge _ _ _ a3 (by omega)) (if_hi_le _ _ _ a4 (by omega))
      obtain ⟨r00, hr00, -⟩ := escHTML_head_cont r0 r2 b2 hr0'.symm a5 a6
      rw [hr0, hr00, decodeRune_three c b1 b2 r00 a1 a2 a3 a4 a5 a6] at h0
      simp at h0
    · obtain ⟨b1, b2, b3, r3, he, a1, a2, a3, a4, a5, a6, a7, a8⟩ := h1
      obtain ⟨r0, hr0, hr0'⟩ := escHTML_head_cont r _ b1 he
        (if_lo_ge _ _ _ a3 (by omega)) (if_hi_le _ _ _ a4 (by omega))
      obtain ⟨r00, hr00, hr00'⟩ := escHTML_head_cont r0 _ b2 hr0'.symm a5 a6
      obtain ⟨r000, hr000, -⟩ := escHTML_head_cont r00 r3 b3 hr00'.symm a7 a8
      rw [hr0, hr00, hr000, decodeRune_four c b1 b2 b3 r000 a1 a2 a3 a4 a5 a6 a7 a8] at h0
      simp at h0
  · obtain ⟨b1, r1, rfl, a1, a2, a3, a4⟩ := h0
    have hr1 : StrBody r1 := hr.tail_of_plain (by omega)
    refine ⟨[c, b1], r1, rfl, by rw [decodeRune_two c b1 r1 a1 a2 a3 a4]; rfl, by simp, ?_, ?_,
      hr1⟩
    · rw [hcopy, escHTML_cont b1 r1 a3 a4]; rfl
    · rw [decodeRune_two c b1 r1 a1 a2 a3 a4]
      exact decodeRune_two c b1 _ a1 a2 a3 a4
  · obtain ⟨b1, b2, r2, rfl, a1, a2, a3, a4, a5, a6⟩ := h0
    have l1 := if_lo_ge _ _ _ a3 (by omega)
    have l2 := if_hi_le _ _ _ a4 (by omega)
    have hr2 : StrBody r2 := (hr.tail_of_plain (by omega)).tail_of_plain (by omega)
    refine ⟨[c, b1, b2], r2, rfl, by rw [decodeRune_three c b1 b2 r2 a1 a2 a3 a4 a5 a6]; rfl,
      by simp, ?_, ?_, hr2⟩
    · rw [hcopy, escHTML_cont b1 _ l1 l2, escHTML_cont b2 r2 a5 a6]; rfl
    · rw [decodeRune_three c b1 b2 r2 a1 a2 a3 a4 a5 a6]
      exact decodeRune_three c b1 b2 _ a1 a2 a3 a4 a5 a6
  · obtain ⟨b1, b2, b3, r3, rfl, a1, a2, a3, a4, a5, a6, a7, a8⟩ := h0
    have l1 := if_lo_ge _ _ _ a3 (by omega)
    have l2 := if_hi_le _ _ _ a4 (by omega)
    have hr3 : StrBody r3 :=
      ((hr.tail_of_plain (by omega)).tail_of_plain (by omega)).tail_of_plain (by omega)
    refine ⟨[c, b1, b2, b3], r3, rfl,
      by rw [decodeRune_four c b1 b2 b3 r3 a1 a2 a3 a4 a5 a6 a7 a8]; rfl, by simp, ?_, ?_, hr3⟩
    · rw [hcopy, escHTML_cont b1 _ l1 l2, escHTML_cont b2 _ a5 a6, escHTML_cont b3 r3 a7 a8]; rfl
    · rw [decodeRune_four c b1 b2 b3 r3 a1 a2 a3 a4 a5 a6 a7 a8]
      exact decodeRune_four c b1 b2 b3 _ a1 a2 a3 a4 a5 a6 a7 a8

theorem getu4_uni (h1 h2 h3 h4 : Nat) (r : Bytes)
    (hh : (isHex h1 && isHex h2 && isHex h3 && isHex h4) = true) :
    getu4 (0x5C :: 0x75 :: h1 :: h2 :: h3 :: h4 :: r)
      = some (hexVal h1 * 4096 + hexVal h2 * 256 + hexVal h3 * 16 + hexVal h4) := by
  simp only [getu4, hh, if_true]

theorem getu4_shape (b : Bytes) (rr : Nat) (h : getu4 b = some rr) :
    ∃ h1 h2 h3 h4 r, b = 0x5C :: 0x75 :: h1 :: h2 :: h3 :: h4 :: r ∧
      (isHex h1 && isHex h2 && isHex h3 && isHex h4) = true := by
  unfold getu4 at h
  split at h
  · next h1 h2 h3 h4 r =>
    split at h
    · next hh => exact ⟨h1, h2, h3, h4, r, rfl, hh⟩
    · cases h
  · cases h

theorem getu4_head (c : Nat) (r : Bytes) (hc : c ≠ 0x5C) : getu4 (c :: r) = none := by
  cases hg : getu4 (c :: r) with
  | none => rfl
  | some rr =>
    obtain ⟨h1, h2, h3, h4, r1, he, -⟩ := getu4_shape _ rr hg
    simp only [List.cons.injEq] at he
    exact absurd he.1 hc

theorem getu4_esc (e : Nat) (r : Bytes) (he : e ≠ 0x75) : getu4 (0x5C :: e :: r) = none := by
  cases hg : getu4 (0x5C :: e :: r) with
  | none => rfl
  | some rr =>
    obtain ⟨h1, h2, h3, h4, r1, hs, -⟩ := getu4_shape _ rr hg
    simp only [List.cons.injEq] at hs
    exact absurd hs.2.1 he

theorem unquoteF_uni (m h1 h2 h3 h4 : Nat) (rest : Bytes)
    (hh : (isHex h1 && isHex h2 && isHex h3 && isHex h4) = true) :
    unquoteF (m + 1) (0x5C :: 0x75 :: h1 :: h2 :: h3 :: h4 :: rest) =
      if 0xD800 ≤ hexVal h1 * 4096 + hexVal h2 * 256 + hexVal h3 * 16 + hexVal h4 ∧
          hexVal h1 * 4096 + hexVal h2 * 256 + hexVal h3 * 16 + hexVal h4 < 0xE000 then
        match getu4 rest with
        | some rr1 =>
          if hexVal h1 * 4096 + hexVal h2 * 256 + hexVal h3 * 16 + hexVal h4 < 0xDC00 ∧
              0xDC00 ≤ rr1 ∧ rr1 < 0xE000 then
            encodeRune ((hexVal h1 * 4096 + hexVal h2 * 256 + hexVal h3 * 16 + hexVal h4
              - 0xD800) * 1024 + (rr1 - 0xDC00) + 0x10000) ++ unquoteF m (rest.drop 6)
          else encodeRune 0xFFFD ++ unquoteF m rest
        | none => encodeRune 0xFFFD ++ unquoteF m rest
      else encodeRune (hexVal h1 * 4096 + hexVal h2 * 256 + hexVal h3 * 16 + hexVal h4)
        ++ unquoteF m rest := by
  simp only [unquoteF, getu4, hh, if_true, List.drop]
  simp only [Bool.and_eq_true, decide_eq_true_eq, and_assoc]

theorem escHTML_hex (h : Nat) (r : Bytes) (hh : isHex h = true) :
    escHTML (h :: r) = h :: escHTML r := by
  simp only [isHex, isDigit, Bool.or_eq_true, Bool.and_eq_true, decide_eq_true_eq] at hh
  have a1 : h ≠ 0x3C := by omega
  have a2 : h ≠ 0x3E := by omega
  have a3 : h ≠ 0x26 := by omega
  exact escHTML_plain h r (by simp [escByte, a1, a2, a3]) (by omega)

theorem escHTML_uni (h1 h2 h3 h4 : Nat) (r : Bytes)
    (hh : (isHex h1 && isHex h2 && isHex h3 && isHex h4) = true) :
    escHTML (0x5C :: 0x75 :: h1 :: h2 :: h3 :: h4 :: r)
      = 0x5C :: 0x75 :: h1 :: h2 :: h3 :: h4 :: escHTML r := by
  simp only [Bool.and_eq_true] at hh
  rw [escHTML_plain _ _ (by decide) (by decide), escHTML_plain _ _ (by decide) (by decide),
    escHTML_hex h1 _ hh.1.1.1, escHTML_hex h2 _ hh.1.1.2, escHTML_hex h3 _ hh.1.2,
    escHTML_hex h4 _ hh.2]

theorem escHTML_esc (e : Nat) (r : Bytes) (he : isSimpleEscape e = true) :
    escHTML (0x5C :: e :: r) = 0x5C :: e :: escHTML r := by
  have h1 : escByte e = none ∧ e ≠ 0xE2 := by
    simp only [isSimpleEscape, Bool.or_eq_true, decide_eq_true_eq] at he
    rcases he with ((((((h | h) | h) | h) | h) | h) | h) | h <;> subst h <;> decide
  rw [escHTML_plain _ _ (by decide) (by decide), escHTML_plain _ _ h1.1 h1.2]

theorem escByte_cases (c : Nat) (e : Bytes) (h : escByte c = some e) :
    (c = 0x3C ∧ e = [0x5C, 0x75, 0x30, 0x30, 0x33, 0x63]) ∨
    (c = 0x3E ∧ e = [0x5C, 0x75, 0x30, 0x30, 0x33, 0x65]) ∨
    (c = 0x26 ∧ e = [0x5C, 0x75, 0x30, 0x30, 0x32, 0x36]) := by
  unfold escByte at h
  split at h
  · next hc => cases h; exact Or.inl ⟨hc, rfl⟩
  · split at h
    · next hc => cases h; exact Or.inr (Or.inl ⟨hc, rfl⟩)
    · split at h
      · next hc => cases h; exact Or.inr (Or.inr ⟨hc, rfl⟩)
      · cases h

/-- The escapes that `escHTML` writes are not low surrogates. -/
theorem getu4_escHTML_none (b : Bytes) (hb : StrBody b) (hn : getu4 b = none) (rr1 : Nat)
    (h : getu4 (escHTML b) = some rr1) : ¬ (0xDC00 ≤ rr1 ∧ rr1 < 0xE000) := by
  cases hb with
  | nil => simp [escHTML, getu4] at h
  | plain c b1 hc hb1 =>
    have hc5 : c ≠ 0x5C := by
      simp only [isPlain, Bool.and_eq_true, Bool.not_eq_true', decide_eq_false_iff_not] at hc
      exact hc.2
    cases he : escByte c with
    | some e =>
      rw [escHTML_special c e b1 he] at h
      rcases escByte_cases c e he with ⟨-, rfl⟩ | ⟨-, rfl⟩ | ⟨-, rfl⟩
      · rw [List.cons_append, List.cons_append, List.cons_append, List.cons_append,
          List.cons_append, List.cons_append, List.nil_append,
          getu4_uni _ _ _ _ _ (by decide)] at h
        cases h; decide
      · rw [List.cons_append, List.cons_append, List.cons_append, List.cons_append,
          List.cons_append, List.cons_append, List.nil_append,
          getu4_uni _ _ _ _ _ (by decide)] at h
        cases h; decide
      · rw [List.cons_append, List.cons_append, List.cons_append, List.cons_append,
          List.cons_append, List.cons_append, List.nil_append,
          getu4_uni _ _ _ _ _ (by decide)] at h
        cases h; decide
    | none =>
      by_cases hE : c = 0xE2
      · subst hE
        match b1, h with
        | [], h =>
          rw [escHTML_E2_short _ (by simp), getu4_head _ _ (by decide)] at h; cases h
        | [_], h =>
          rw [escHTML_E2_short _ (by simp), getu4_head _ _ (by decide)] at h; cases h
        | c1 :: c2 :: r2, h =>
          rw [escHTML_E2] at h
          have e1 : ascii "\\u2028" = [0x5C, 0x75, 0x32, 0x30, 0x32, 0x38] := rfl
          have e2 : ascii "\\u2029" = [0x5C, 0x75, 0x32, 0x30, 0x32, 0x39] := rfl
          split at h
          · rw [e1, List.cons_append, List.cons_append, List.cons_append, List.cons_append,
              List.cons_append, List.cons_append, List.nil_append,
              getu4_uni _ _ _ _ _ (by decide)] at h
            cases h; decide
          · split at h
            · rw [e2, List.cons_append, List.cons_append, List.cons_append, List.cons_append,
                List.cons_append, List.cons_append, List.nil_append,
                getu4_uni _ _ _ _ _ (by decide)] at h
              cases h; decide
            · rw [getu4_head _ _ (by decide)] at h; cases h
      · rw [escHTML_plain c b1 he hE, getu4_head _ _ hc5] at h; cases h
  | esc e b1 he hb1 =>
    rw [escHTML_esc e b1 he, getu4_esc _ _ (simpleEscape_ne_u e he)] at h; cases h
  | uni h1 h2 h3 h4 b1 hh hb1 =>
    rw [getu4_uni h1 h2 h3 h4 b1 hh] at hn; cases hn

theorem StrBody.tail_of_uni {h1 h2 h3 h4 : Nat} {r : Bytes}
    (h : StrBody (0x5C :: 0x75 :: h1 :: h2 :: h3 :: h4 :: r)) : StrBody r := by
  cases h with
  | plain _ _ hc _ => simp [isPlain] at hc
  | esc _ _ he _ => simp [isSimpleEscape] at he
  | uni _ _ _ _ _ _ hr => exact hr

theorem unquoteF_copy (n c : Nat) (b1 : Bytes) (m1 m2 : Nat)
    (ih : ∀ (b : Bytes) (m1 m2 : Nat), b.length ≤ n → StrBody b → b.length ≤ m1 →
      (escHTML b).length ≤ m2 → unquoteF m2 (escHTML b) = unquoteF m1 b)
    (hl : (c :: b1).length ≤ n + 1) (hb : StrBody (c :: b1)) (hc : ¬ c < 0x80)
    (hcopy : escHTML (c :: b1) = c :: escHTML b1)
    (hm1 : (c :: b1).length ≤ m1) (hm2 : (escHTML (c :: b1)).length ≤ m2) :
    unquoteF m2 (escHTML (c :: b1)) = unquoteF m1 (c :: b1) := by
  obtain ⟨w, rest, hs, hwl, hw1, hesc, hdec, hrest⟩ := rune_escHTML c b1 hc hcopy hb
  have hlen : (c :: b1).length = w.length + rest.length := by rw [hs, List.length_append]
  rw [hesc] at hm2 ⊢
  rw [List.length_append] at hm2
  obtain ⟨m1, rfl⟩ : ∃ k, m1 = k + 1 := ⟨m1 - 1, by simp only [List.length_cons] at hm1; omega⟩
  obtain ⟨m2, rfl⟩ : ∃ k, m2 = k + 1 := ⟨m2 - 1, by omega⟩
  have h2 : unquoteF (m1 + 1) (c :: b1) = encodeRune (decodeRune (c :: b1)).1
      ++ unquoteF m1 rest := by
    rw [unquoteF_multi m1 c b1 hc, ← hwl]
    congr 2
    rw [hs]; exact List.drop_left' rfl
  rw [h2]
  match w, hs, hwl, hw1, hdec, hm2, hlen with
  | x :: w1, hs, hwl, hw1, hdec, hm2, hlen =>
    have hx : x = c := by
      simp only [List.cons_append, List.cons.injEq] at hs; exact hs.1.symm
    subst hx
    rw [List.cons_append, unquoteF_multi m2 x _ hc, ← List.cons_append, hdec, ← hwl,
      List.drop_left' rfl]
    congr 1
    exact ih rest m1 m2 (by simp only [List.length_cons] at hl hlen; omega) hrest
      (by simp only [List.length_cons] at hm1 hlen; omega)
      (by simp only [List.length_cons] at hm2; omega)

theorem unquoteF_escHTML : ∀ (n : Nat) (b : Bytes) (m1 m2 : Nat), b.length ≤ n → StrBody b →
    b.length ≤ m1 → (escHTML b).length ≤ m2 → unquoteF m2 (escHTML b) = unquoteF m1 b := by
  intro n
  induction n with
  | zero =>
    intro b m1 m2 hl _ _ _
    have : b = [] := List.length_eq_zero.1 (Nat.le_zero.1 hl)
    subst this
    simp [escHTML, unquoteF_nil]
  | succ n ih =>
    intro b m1 m2 hl hb hm1 hm2
    cases hb with
    | nil => simp [escHTML, unquoteF_nil]
    | plain c b1 hc hb1 =>
      have hc' := hc
      simp only [isPlain, Bool.and_eq_true, Bool.not_eq_true', decide_eq_false_iff_not] at hc'
      have hc5 : c ≠ 0x5C := hc'.2
      have hl1 : b1.length ≤ n := by simp only [List.length_cons] at hl; omega
      cases he : escByte c with
      | some e =>
        rw [escHTML_special c e b1 he] at hm2 ⊢
        rw [List.length_append] at hm2
        obtain ⟨m1, rfl⟩ : ∃ k, m1 = k + 1 :=
          ⟨m1 - 1, by simp only [List.length_cons] at hm1; omega⟩
        rcases escByte_cases c e he with ⟨rfl, rfl⟩ | ⟨rfl, rfl⟩ | ⟨rfl, rfl⟩
        · simp only [List.length_cons, List.length_nil] at hm1 hm2
          obtain ⟨m2, rfl⟩ : ∃ k, m2 = k + 1 := ⟨m2 - 1, by omega⟩
          have := unquoteF_u m2 0x30 0x30 0x33 0x63 (escHTML b1) (by decide) (by decide)
          simp only [List.cons_append, List.nil_append]
          rw [this, unquoteF_ascii m1 _ b1 (by decide) (by decide),
            ih b1 m1 m2 hl1 hb1 (by omega) (by omega)]
          rfl
        · simp only [List.length_cons, List.length_nil] at hm1 hm2
          obtain ⟨m2, rfl⟩ : ∃ k, m2 = k + 1 := ⟨m2 - 1, by omega⟩
          have := unquoteF_u m2 0x30 0x30 0x33 0x65 (escHTML b1) (by decide) (by decide)
          simp only [List.cons_append, List.nil_append]
          rw [this, unquoteF_ascii m1 _ b1 (by decide) (by decide),
            ih b1 m1 m2 hl1 hb1 (by omega) (by omega)]
          rfl
        · simp only [List.length_cons, List.length_nil] at hm1 hm2
          obtain ⟨m2, rfl⟩ : ∃ k, m2 = k + 1 := ⟨m2 - 1, by omega⟩
          have := unquoteF_u m2 0x30 0x30 0x32 0x36 (escHTML b1) (by decide) (by decide)
          simp only [List.cons_append, List.nil_append]
          rw [this, unquoteF_ascii m1 _ b1 (by decide) (by decide),
            ih b1 m1 m2 hl1 hb1 (by omega) (by omega)]
          rfl
      | none =>
        by_cases hlt : c < 0x80
        · rw [escHTML_plain c b1 he (by omega)] at hm2 ⊢
          simp only [List.length_cons] at hm1 hm2
          obtain ⟨m1, rfl⟩ : ∃ k, m1 = k + 1 := ⟨m1 - 1, by omega⟩
          obtain ⟨m2, rfl⟩ : ∃ k, m2 = k + 1 := ⟨m2 - 1, by omega⟩
          rw [unquoteF_ascii m2 c _ hlt hc5, unquoteF_ascii m1 c _ hlt hc5,
            ih b1 m1 m2 hl1 hb1 (by omega) (by omega)]
        · have hcopyCase : escHTML (c :: b1) = c :: escHTML b1 →
              unquoteF m2 (escHTML (c :: b1)) = unquoteF m1 (c :: b1) := fun hcopy =>
            unquoteF_copy n c b1 m1 m2 ih hl (StrBody.plain c b1 hc hb1) hlt hcopy hm1 hm2
          by_cases hE : c = 0xE2
          · subst hE
            match b1, hb1, hl1, hm1, hm2, hcopyCase with
            | [], _, _, _, _, hcopyCase => exact hcopyCase (escHTML_E2_short _ (by simp))
            | [_], _, _, _, _, hcopyCase => exact hcopyCase (escHTML_E2_short _ (by simp))
            | c1 :: c2 :: r2, hb1, hl1, hm1, hm2, hcopyCase =>
              by_cases hLS : c1 = 0x80 ∧ c2 = 0xA8
              · obtain ⟨rfl, rfl⟩ := hLS
                have hr2 : StrBody r2 :=
                  (hb1.tail_of_plain (by decide)).tail_of_plain (by decide)
                have e1 : ascii "\\u2028" = [0x5C, 0x75, 0x32, 0x30, 0x32, 0x38] := rfl
                rw [escHTML_E2, if_pos ⟨rfl, rfl⟩, e1] at hm2 ⊢
                simp only [List.length_cons, List.length_append, List.length_nil] at hm1 hm2 hl1
                obtain ⟨m1, rfl⟩ : ∃ k, m1 = k + 1 := ⟨m1 - 1, by omega⟩
                obtain ⟨m2, rfl⟩ : ∃ k, m2 = k + 1 := ⟨m2 - 1, by omega⟩
                have := unquoteF_u m2 0x32 0x30 0x32 0x38 (escHTML r2) (by decide) (by decide)
                simp only [List.cons_append, List.nil_append]
                rw [this, unquoteF_multi m1 _ _ (by decide),
                  decodeRune_three 0xE2 0x80 0xA8 r2 (by decide) (by decide) (by decide)
                    (by decide) (by decide) (by decide),
                  ih r2 m1 m2 (by omega) hr2 (by omega) (by omega)]
                rfl
              · by_cases hPS : c1 = 0x80 ∧ c2 = 0xA9
                · obtain ⟨rfl, rfl⟩ := hPS
                  have hr2 : StrBody r2 :=
                    (hb1.tail_of_plain (by decide)).tail_of_plain (by decide)
                  have e1 : ascii "\\u2029" = [0x5C, 0x75, 0x32, 0x30, 0x32, 0x39] := rfl
                  rw [escHTML_E2, if_neg (by decide), if_pos ⟨rfl, rfl⟩, e1] at hm2 ⊢
                  simp only [List.length_cons, List.length_append, List.length_nil]
                    at hm1 hm2 hl1
                  obtain ⟨m1, rfl⟩ : ∃ k, m1 = k + 1 := ⟨m1 - 1, by omega⟩
                  obtain ⟨m2, rfl⟩ : ∃ k, m2 = k + 1 := ⟨m2 - 1, by omega⟩
                  have := unquoteF_u m2 0x32 0x30 0x32 0x39 (escHTML r2) (by decide) (by decide)
                  simp only [List.cons_append, List.nil_append]
                  rw [this, unquoteF_multi m1 _ _ (by decide),
                    decodeRune_three 0xE2 0x80 0xA9 r2 (by decide) (by decide) (by decide)
                      (by decide) (by decide) (by decide),
                    ih r2 m1 m2 (by omega) hr2 (by omega) (by omega)]
                  rfl
                · apply hcopyCase
                  rw [escHTML_E2, if_neg hLS, if_neg hPS]
          · exact hcopyCase (escHTML_plain c b1 he hE)
    | esc e b1 he hb1 =>
      have hl1 : b1.length ≤ n := by simp only [List.length_cons] at hl; omega
      rw [escHTML_esc e b1 he] at hm2 ⊢
      simp only [List.length_cons] at hm1 hm2
      obtain ⟨m1, rfl⟩ : ∃ k, m1 = k + 1 := ⟨m1 - 1, by omega⟩
      obtain ⟨m2, rfl⟩ : ∃ k, m2 = k + 1 := ⟨m2 - 1, by omega⟩
      rw [unquoteF_esc m2 e _ (simpleEscape_ne_u e he),
        unquoteF_esc m1 e _ (simpleEscape_ne_u e he),
        ih b1 m1 m2 hl1 hb1 (by omega) (by omega)]
    | uni h1 h2 h3 h4 b1 hh hb1 =>
      have hl1 : b1.length ≤ n := by simp only [List.length_cons] at hl; omega
      rw [escHTML_uni h1 h2 h3 h4 b1 hh] at hm2 ⊢
      simp only [List.length_cons] at hm1 hm2
      obtain ⟨m1, rfl⟩ : ∃ k, m1 = k + 1 := ⟨m1 - 1, by omega⟩
      obtain ⟨m2, rfl⟩ : ∃ k, m2 = k + 1 := ⟨m2 - 1, by omega⟩
      have ihb := ih b1 m1 m2 hl1 hb1 (by omega) (by omega)
      rw [unquoteF_uni m2 h1 h2 h3 h4 _ hh, unquoteF_uni m1 h1 h2 h3 h4 _ hh]
      split
      · cases hg : getu4 b1 with
        | none =>
          simp only
          cases hg2 : getu4 (escHTML b1) with
          | none => simp only [ihb]
          | some rr1 =>
            have := getu4_escHTML_none b1 hb1 hg rr1 hg2
            simp only
            rw [if_neg (fun hcon => this hcon.2), ihb]
        | some rr1 =>
          obtain ⟨k1, k2, k3, k4, r7, hs, hk⟩ := getu4_shape b1 rr1 hg
          subst hs
          have hr7 : StrBody r7 := hb1.tail_of_uni
          have hg2 : getu4 (escHTML (0x5C :: 0x75 :: k1 :: k2 :: k3 :: k4 :: r7)) = some rr1 := by
            rw [escHTML_uni k1 k2 k3 k4 r7 hk, getu4_uni k1 k2 k3 k4 _ hk]
            rw [getu4_uni k1 k2 k3 k4 r7 hk] at hg
            exact hg
          simp only [hg2]
          split
          · rw [escHTML_uni k1 k2 k3 k4 r7 hk]
            simp only [List.drop_succ_cons, List.drop_zero]
            rw [escHTML_uni k1 k2 k3 k4 r7 hk] at hm2
            simp only [List.length_cons] at hl1 hm1 hm2
            rw [ih r7 m1 m2 (by omega) hr7 (by omega) (by omega)]
          · rw [ihb]
      · rw [ihb]

theorem unquote_escHTML (b : Bytes) (hb : StrBody b) : unquote (escHTML b) = unquote b :=
  unquoteF_escHTML b.length b b.length (escHTML b).length (Nat.le_refl _) hb (Nat.le_refl _)
    (Nat.le_refl _)

mutual
theorem value_mapStr_escHTML : ∀ v : JV, JV.WF v →
    (v.mapStr escHTML).mapStr unquote = v.mapStr unquote
  | .lit t, _ => by simp [JV.mapStr]
  | .str b, h => by
    simp only [JV.WF] at h
    simp only [JV.mapStr, unquote_escHTML b h]
  | .arr items, h => by
    simp only [JV.WF] at h
    simp only [JV.mapStr, valueList_mapStr_escHTML items h]
  | .obj ms, h => by
    simp only [JV.WF] at h
    simp only [JV.mapStr, valueMembers_mapStr_escHTML ms h]
theorem valueList_mapStr_escHTML : ∀ vs : List JV, JV.WFList vs →
    JV.mapStrList unquote (JV.mapStrList escHTML vs) = JV.mapStrList unquote vs
  | [], _ => by simp [JV.mapStrList]
  | v :: vs, h => by
    simp only [JV.WFList] at h
    simp only [JV.mapStrList, value_mapStr_escHTML v h.1, valueList_mapStr_escHTML vs h.2]
theorem valueMembers_mapStr_escHTML : ∀ ms : List (Bytes × JV), JV.WFMembers ms →
    JV.mapStrMembers unquote (JV.mapStrMembers escHTML ms) = JV.mapStrMembers unquote ms
  | [], _ => by simp [JV.mapStrMembers]
  | (k, v) :: ms, h => by
    simp only [JV.WFMembers] at h
    simp only [JV.mapStrMembers, unquote_escHTML k h.1, value_mapStr_escHTML v h.2.1,
      valueMembers_mapStr_escHTML ms h.2.2]
end

theorem parse_indent (i : Nat) (v : JV) (hw : JV.WF v)
    (hh : JV.height v ≤ maxNestingDepth) : parse (JV.indent i v) = some v := by
  have h1 := pValue_indent (maxNestingDepth + 1) 0 i v [] (by omega) hw (by omega) restOK_nil
  have h2 := skipSpace_indent i v hw []
  rw [List.append_nil] at h1 h2
  unfold parse
  rw [h2, h1]
  simp [skipSpace]

/-- The re-indented form of a raw message stands for the same JSON value. -/
theorem reindent_value (raw raw1 : Bytes) (h : reindent raw = some raw1) :
    jsonValue raw1 = jsonValue raw ∧ ∃ j, jsonValue raw = some j := by
  unfold reindent at h
  cases hp : parse raw with
  | none => simp [hp] at h
  | some v =>
    simp only [hp, Option.map_some', Option.some.injEq] at h
    subst h
    obtain ⟨hw, hh⟩ := parse_sound raw v hp
    have hp1 := parse_indent 1 (v.mapStr escHTML) (wf_mapStr v hw)
      (by rw [height_mapStr]; exact hh)
    simp only [jsonValue, hp, hp1, Option.map_some', value_mapStr_escHTML v hw, true_and]
    exact ⟨_, rfl⟩

/-- The decoder for `int` depends only on the JSON value of the text. -/
theorem unmarshalInt_value (r1 r2 : Bytes) (j : JV) (h1 : jsonValue r1 = some j)
    (h2 : jsonValue r2 = some j) : unmarshalInt r1 = unmarshalInt r2 := by
  unfold jsonValue at h1 h2
  cases hp1 : parse r1 with
  | none => simp [hp1] at h1
  | some v1 =>
    cases hp2 : parse r2 with
    | none => simp [hp2] at h2
    | some v2 =>
      simp only [hp1, hp2, Option.map_some', Option.some.injEq] at h1 h2
      subst h1
      unfold unmarshalInt
      rw [hp1, hp2]
      cases v1 <;> cases v2 <;> simp [JV.mapStr] at h2 <;> simp [h2]

/-! ## Persistence survives reconstruction -/

/-- C2 (as amended). Persistence survives reconstruction when the keys are valid UTF-8
and the decoder of the element type depends only on the JSON value of the text: let
`Set(k, v)` return without error and leave a store whose keys, `k` included, are
valid UTF-8. Then `NewStore` on the same path, with a read that goes through, returns
a store without error and leaves the file as it is; the new store has exactly the keys
of the old one; under each key it holds the re-indented form of the raw message of the
old store, which stands for the same JSON value; `Get` returns on every key what it
returns on the old store; and `Get(k)` returns `v`, for `v` that decodes back from its
encoding. -/
theorem C2_persistence_reload {T : Type} (zero : T) (enc : T → Except Error Bytes)
    (dec : Bytes → Except Error T) (s : Store) (k b : Bytes) (v : T)
    (fs : FS) (env env2 : Env) (s1 : Store) (fs1 : FS)
    (henc : enc v = .ok b) (hback : dec b = .ok v)
    (hdec : ∀ r1 r2 j, jsonValue r1 = some j → jsonValue r2 = some j → dec r1 = dec r2)
    (hset : Store.Set (goJsonFor zero enc dec) s k v fs env = .ret (s1, fs1, none))
    (hutf : ∀ k1 ∈ (Store.Keys s1).1, validUTF8 k1.length k1 = true)
    (hread : env2.read = none) :
    ∃ s2, Store.NewStore (goJsonFor zero enc dec) s.path fs1 env2 = (.ok s2, fs1) ∧
      (∀ k1, k1 ∈ (Store.Keys s2).1 ↔ k1 ∈ (Store.Keys s1).1) ∧
      (∀ k1, s2.data.bind (fun m2 => m2.lookup k1)
        = (s1.data.bind (fun m1 => m1.lookup k1)).bind reindent) ∧
      (∀ k1 raw, s1.data.bind (fun m1 => m1.lookup k1) = some raw →
        ∃ raw1 j, s2.data.bind (fun m2 => m2.lookup k1) = some raw1 ∧
          jsonValue raw = some j ∧ jsonValue raw1 = some j) ∧
      (∀ k1, Store.Get (goJsonFor zero enc dec) s2 k1
        = Store.Get (goJsonFor zero enc dec) s1 k1) ∧
      Store.Get (goJsonFor zero enc dec) s2 k = (v, none) := by
  have henc1 : (goJsonFor zero enc dec).Marshal v = .ok b := henc
  cases hm : s.data with
  | none => simp [Store.Set, henc1, hm] at hset
  | some m =>
    rw [set_ret (goJsonFor zero enc dec) s m k b v fs env hm henc1] at hset
    simp only [Result.ret.injEq, Prod.mk.injEq] at hset
    obtain ⟨h1, h2, h3⟩ := hset
    obtain ⟨doc, perm, hdoc, hfile⟩ := persist_ok _ _ fs env h3
    rw [h2] at hfile
    have hdoc1 : marshalIndentMap (some (m.insert k b)) = .ok doc := hdoc
    subst h1
    obtain ⟨m1, hu, hne, hlook⟩ := unmarshal_marshalIndent (m.insert k b) doc hutf hdoc1
    have hsome : ∀ k1 raw, (m.insert k b).lookup k1 = some raw →
        ∃ raw1, reindent raw = some raw1 :=
      fun k1 raw => reindent_isSome_of_marshal _ doc hdoc1 k1 raw
    have hval : ∀ k1 raw, (m.insert k b).lookup k1 = some raw →
        ∃ raw1 j, m1.lookup k1 = some raw1 ∧ jsonValue raw = some j ∧
          jsonValue raw1 = some j := by
      intro k1 raw hl
      obtain ⟨raw1, hr1⟩ := hsome k1 raw hl
      obtain ⟨hv, j, hj⟩ := reindent_value raw raw1 hr1
      exact ⟨raw1, j, by rw [hlook k1, hl]; exact hr1, hj, by rw [hv]; exact hj⟩
    have hget : ∀ k1, Store.Get (goJsonFor zero enc dec) ⟨s.path, some m1⟩ k1
        = Store.Get (goJsonFor zero enc dec) ⟨s.path, some (m.insert k b)⟩ k1 := by
      intro k1
      unfold Store.Get
      simp only [Option.some_bind]
      cases hl : (m.insert k b).lookup k1 with
      | none => simp [hlook k1, hl]
      | some raw =>
        obtain ⟨raw1, j, hl1, hj, hj1⟩ := hval k1 raw hl
        have hd1 : (goJsonFor zero enc dec).Unmarshal raw1
            = (goJsonFor zero enc dec).Unmarshal raw := hdec raw1 raw j hj1 hj
        simp only [hl1, hd1]
    refine ⟨⟨s.path, some m1⟩,
      newStore_of_file zero enc dec s.path fs1 env2 doc perm m1 hfile hread hne hu,
      ?_, ?_, ?_, hget, ?_⟩
    · intro k1
      simp only [Store.Keys, ← AList.mem_keys, ← AList.lookup_isSome, hlook k1]
      cases hl : (m.insert k b).lookup k1 with
      | none => simp
      | some raw =>
        obtain ⟨raw1, hr1⟩ := hsome k1 raw hl
        simp [hr1]
    · intro k1
      simp only [Option.some_bind]
      exact hlook k1
    · intro k1 raw hl
      exact hval k1 raw (by simpa using hl)
    · rw [hget k]
      exact get_of_lookup _ _ (m.insert k b) k b v rfl (AList.lookup_insert m) hback

theorem C2_persistence_reload_witness :
    ∃ s2, Store.NewStore (goJsonFor ⟨0, by decide⟩ marshalInt unmarshalInt)
        (freshStore (ascii "db")).path
        (afterSet goJson (freshStore (ascii "db"), emptyFS) (ascii "k") ⟨7, by decide⟩
          Env.good).2 Env.good
        = (.ok s2, (afterSet goJson (freshStore (ascii "db"), emptyFS) (ascii "k")
          ⟨7, by decide⟩ Env.good).2) ∧
      (∀ k1, k1 ∈ (Store.Keys s2).1 ↔ k1 ∈ (Store.Keys
        (afterSet goJson (freshStore (ascii "db"), emptyFS) (ascii "k") ⟨7, by decide⟩
          Env.good).1).1) ∧
      (∀ k1, s2.data.bind (fun m2 => m2.lookup k1)
        = ((afterSet goJson (freshStore (ascii "db"), emptyFS) (ascii "k") ⟨7, by decide⟩
          Env.good).1.data.bind (fun m1 => m1.lookup k1)).bind reindent) ∧
      (∀ k1 raw, (afterSet goJson (freshStore (ascii "db"), emptyFS) (ascii "k")
          ⟨7, by decide⟩ Env.good).1.data.bind (fun m1 => m1.lookup k1) = some raw →
        ∃ raw1 j, s2.data.bind (fun m2 => m2.lookup k1) = some raw1 ∧
          jsonValue raw = some j ∧ jsonValue raw1 = some j) ∧
      (∀ k1, Store.Get (goJsonFor ⟨0, by decide⟩ marshalInt unmarshalInt) s2 k1
        = Store.Get (goJsonFor ⟨0, by decide⟩ marshalInt unmarshalInt)
          (afterSet goJson (freshStore (ascii "db"), emptyFS) (ascii "k") ⟨7, by decide⟩
            Env.good).1 k1) ∧
      Store.Get (goJsonFor ⟨0, by decide⟩ marshalInt unmarshalInt) s2 (ascii "k")
        = (⟨7, by decide⟩, none) :=
  C2_persistence_reload ⟨0, by decide⟩ marshalInt unmarshalInt (freshStore (ascii "db"))
    (ascii "k") (ascii "7") ⟨7, by decide⟩ emptyFS Env.good Env.good
    (afterSet goJson (freshStore (ascii "db"), emptyFS) (ascii "k") ⟨7, by decide⟩ Env.good).1
    (afterSet goJson (freshStore (ascii "db"), emptyFS) (ascii "k") ⟨7, by decide⟩ Env.good).2
    rfl rfl unmarshalInt_value rfl (by decide) rfl

/-- C2 as stated fails. A key that is not valid UTF-8 is written as U+FFFD: after
`Set("\xff", 1)` on a fresh `Store[int]` succeeds, the store reloaded from the path
has the key `"\xef\xbf\xbd"` instead, and `Get("\xff")` fails with `ErrNotFound`. And
in a `Store[json.RawMessage]` the value `[1,2]` is read back after reloading with the
line breaks and indentation of the file. -/
theorem C2_reload_counterexample :
    (∃ r, Store.Set goJson (freshStore (ascii "db")) [0xFF] ⟨1, by decide⟩ emptyFS Env.good
        = .ret r ∧ r.2.2 = none ∧ (Store.Keys r.1).1 = [[0xFF]] ∧
      Store.Get goJson r.1 [0xFF] = (⟨1, by decide⟩, none) ∧
      ∃ s2, (Store.NewStore goJson (ascii "db") r.2.1 Env.good).1 = .ok s2 ∧
        (Store.Keys s2).1 = [[0xEF, 0xBF, 0xBD]] ∧
        Store.Get goJson s2 [0xFF] = (⟨0, by decide⟩, some Error.ErrNotFound)) ∧
    (∃ r, Store.Set goJsonRaw (freshStore (ascii "db")) (ascii "a") (ascii "[1,2]") emptyFS
        Env.good = .ret r ∧ r.2.2 = none ∧
      Store.Get goJsonRaw r.1 (ascii "a") = (ascii "[1,2]", none) ∧
      ∃ s2, (Store.NewStore goJsonRaw (ascii "db") r.2.1 Env.good).1 = .ok s2 ∧
        Store.Get goJsonRaw s2 (ascii "a") = (ascii "[\n    1,\n    2\n  ]", none)) :=
  ⟨⟨_, rfl, rfl, rfl, rfl, _, rfl, rfl, rfl⟩, ⟨_, rfl, rfl, rfl, _, rfl, rfl⟩⟩

end Jsonstore
